import Mathlib

/-!
Verification of the Streamlet-style consensus engine of this repository
(`market_sim/core/consensus/streamlet.py` and
`market_sim/core/consensus/crypto.py`), as a shallow embedding in Lean 4.

Modelling conventions (each noted again at the definition it concerns):

* SHA-256 digests (`Block.hash`) are modelled as the formal preimage of the
  digest: a `HashVal` is either the distinguished string `"GENESIS"` or the
  constructor `HashVal.node parent epoch proposer payload`, i.e. exactly the
  data that the Python code feeds to `sha256`.  This is the standard
  collision-free model of a cryptographic hash; the Python code itself
  treats two blocks with equal fields as the same block.  The big-endian
  8-byte encoding `epoch.to_bytes(8, "big")` raises `OverflowError` outside
  `0 <= epoch < 2^64`; `Block.hash?` returns `none` there, and callers
  propagate that `none` as "the Python call raised".

* Ed25519 is modelled symbolically (perfect cryptography): a key pair is an
  abstract handle `Nat`, a signature is the pair (key handle, signed
  message), and verification succeeds exactly when both match.  The signed
  message `"{block_hash}:{epoch}:{voter_id}"` is modelled as the triple of
  its components (block-hash digests are hex and contain no colon, so the
  Python string is injective in the components for well-formed hashes).

* Python `dict`s are association lists (`lookupA` finds the first entry,
  `insertA` overwrites in place or appends, as `d[k] = v` does).  Python
  `set`s are duplicate-free lists (`insertS` appends when absent).  The
  iteration order of `notarized_blocks` (a Python set of strings, which is
  hash-randomized) is modelled as insertion order; the only behaviour that
  depends on it is the longest-chain tie-break in `propose`, which the spec
  itself declares to be an implementation accident.

* The two unbounded `while` loops that walk `parent_of` links are modelled
  with an explicit fuel of `hashDepth h + 1`.  In every state the engine's
  API can build, `parent_of` maps `hash(blk)` to `blk.parent_hash`, which is
  a structural subterm of the key, so the walk strictly descends and the
  fuel is never exhausted (proved below, `walkChain_eq_ancChain` etc.).
-/

namespace Streamlet

/-- Hash values: the distinguished `"GENESIS"` string, or the SHA-256 digest
of `parent_hash ‖ epoch_be64 ‖ proposer_id ‖ payload`, modelled as the
preimage itself (collision-free model of SHA-256). -/
inductive HashVal where
  | genesis : HashVal
  | node (parent : HashVal) (epoch : Int) (proposer : String) (payload : List Nat) : HashVal
deriving DecidableEq, Repr

/-- Number of `node` constructors down the parent spine of a hash preimage;
used as fuel for the `parent_of` chain walks. -/
def hashDepth : HashVal → Nat
  | .genesis => 0
  | .node p _ _ _ => hashDepth p + 1

/-- `Block` (streamlet.py): frozen dataclass with parent hash, epoch,
proposer id and opaque payload (bytes modelled as `List Nat`). -/
structure Block where
  parent_hash : HashVal
  epoch : Int
  proposer_id : String
  payload : List Nat
deriving DecidableEq, Repr

/-- `Block.hash()`: sha256 over the four fields.  `epoch.to_bytes(8, "big")`
raises `OverflowError` unless `0 ≤ epoch < 2^64`; that exception is
modelled as `none`. -/
def Block.hash? (b : Block) : Option HashVal :=
  if 0 ≤ b.epoch ∧ b.epoch < 18446744073709551616 then
    some (HashVal.node b.parent_hash b.epoch b.proposer_id b.payload)
  else none

/-- The signed message of a vote, `"{block_hash}:{epoch}:{voter_id}"`,
modelled as the triple of its components. -/
structure VoteMsg where
  block_hash : HashVal
  epoch : Int
  voter_id : String
deriving DecidableEq, Repr

/-- An Ed25519 signature, modelled symbolically as (signing key handle,
signed message): verification succeeds iff both match. -/
structure Sig where
  key : Nat
  msg : VoteMsg
deriving DecidableEq, Repr

/-- `Ed25519KeyPair` (crypto.py), modelled as an abstract key handle; the
public key is the same handle. -/
structure Ed25519KeyPair where
  key : Nat
deriving DecidableEq, Repr

def Ed25519KeyPair.public_key (kp : Ed25519KeyPair) : Nat := kp.key

def Ed25519KeyPair.sign (kp : Ed25519KeyPair) (m : VoteMsg) : Sig := ⟨kp.key, m⟩

/-- `verify_signature` (crypto.py): true iff the signature was produced by
the matching private key over exactly this message. -/
def verify_signature (public_key : Nat) (message : VoteMsg) (signature : Sig) : Bool :=
  signature.key == public_key && signature.msg == message

/-- `Vote` (streamlet.py). -/
structure Vote where
  block_hash : HashVal
  epoch : Int
  voter_id : String
  signature : Sig
deriving DecidableEq, Repr

/-- `Notarization` (streamlet.py): per-block aggregate of distinct voters
(Python set modelled as a duplicate-free list). -/
structure Notarization where
  block_hash : HashVal
  epoch : Int
  voters : List String
deriving DecidableEq, Repr

/-- Association-list lookup: first entry with the given key
(Python `dict.get`). -/
def lookupA {κ ν : Type} [DecidableEq κ] : List (κ × ν) → κ → Option ν
  | [], _ => none
  | (k₀, v₀) :: rest, k => if k₀ = k then some v₀ else lookupA rest k

/-- Association-list insert: overwrite in place if the key is present, else
append (Python `d[k] = v`). -/
def insertA {κ ν : Type} [DecidableEq κ] : List (κ × ν) → κ → ν → List (κ × ν)
  | [], k, v => [(k, v)]
  | (k₀, v₀) :: rest, k, v =>
    if k₀ = k then (k, v) :: rest else (k₀, v₀) :: insertA rest k v

/-- Set insert: append when absent (Python `set.add`). -/
def insertS {α : Type} [DecidableEq α] (l : List α) (a : α) : List α :=
  if a ∈ l then l else l ++ [a]

/-- `Node` (streamlet.py): one replica's configuration and local view. -/
structure Node where
  node_id : String
  keys : Ed25519KeyPair
  public_keys : List (String × Nat)
  f : Int
  blocks : List (HashVal × Block)
  parent_of : List (HashVal × Option HashVal)
  notarized_blocks : List HashVal
  votes_seen : List ((HashVal × String) × Vote)
  notarizations : List (HashVal × Notarization)
  finalized : List HashVal
deriving DecidableEq, Repr

/-- `Node.genesis_hash`. -/
def Node.genesis_hash (_ : Node) : HashVal := HashVal.genesis

/-- `Node.get_quorum`: `2 * f + 1`. -/
def Node.get_quorum (n : Node) : Int := 2 * n.f + 1

/-- `self.parent_of.get(cur)`: absent key and stored `None` both give
`None`. -/
def parentGet (po : List (HashVal × Option HashVal)) (h : HashVal) : Option HashVal :=
  match lookupA po h with
  | some v => v
  | none => none

/-- One chain walk of `longest_notarized_chains`:
`while cur and cur in self.blocks: chain.append(cur); cur = parent_of.get(cur)`.
Returns the visited hashes (tip first) and the value of `cur` on loop exit
(`none` models Python `None`).  `fuel` bounds the number of iterations; it
is instantiated with `hashDepth h + 1`, which never runs out in states the
engine builds (see `walkChain_eq_ancChain`). -/
def walkChain (blocks : List (HashVal × Block)) (po : List (HashVal × Option HashVal)) :
    Nat → Option HashVal → List HashVal × Option HashVal
  | 0, cur => ([], cur)
  | _ + 1, none => ([], none)
  | fuel + 1, some h =>
    if (lookupA blocks h).isSome then
      let rest := walkChain blocks po fuel (parentGet po h)
      (h :: rest.1, rest.2)
    else ([], some h)

/-- `Node.longest_notarized_chains`, written over the state components it
reads.  For each notarized tip, walk the parent links; keep the chain iff
the walk bottoms out at `GENESIS` or `None`; retain all chains of maximal
length, in iteration order (`chains[-1]` is the last one kept). -/
def longestChainsCore (blocks : List (HashVal × Block))
    (po : List (HashVal × Option HashVal)) (notarized : List HashVal) :
    List (List HashVal) :=
  (notarized.foldl
    (fun acc bh =>
      let w := walkChain blocks po (hashDepth bh + 1) (some bh)
      if w.2 = some HashVal.genesis ∨ w.2 = none then
        if w.1.length > acc.1 then (w.1.length, [w.1.reverse])
        else if w.1.length = acc.1 then (acc.1, acc.2 ++ [w.1.reverse])
        else acc
      else acc)
    (0, [])).2

def Node.longest_notarized_chains (n : Node) : List (List HashVal) :=
  longestChainsCore n.blocks n.parent_of n.notarized_blocks

/-- `Node.leader_for_epoch`: `node_ids[epoch % len(node_ids)]`.  Python `%`
on a positive modulus agrees with `Int.emod`; an empty roster raises
`ZeroDivisionError`, modelled as `none`. -/
def leader_for_epoch (epoch : Int) (node_ids : List String) : Option String :=
  node_ids.get? (epoch.emod node_ids.length).toNat

/-- `Node.sign_vote`. -/
def Node.sign_vote (n : Node) (block_hash : HashVal) (epoch : Int) : Vote :=
  { block_hash := block_hash, epoch := epoch, voter_id := n.node_id,
    signature := n.keys.sign ⟨block_hash, epoch, n.node_id⟩ }

/-- `Node.can_vote_for`: no earlier own vote in this epoch, non-negative
epoch, and the proposal extends a longest notarized chain tip (bootstrap:
with no chains, accept a parent that is `GENESIS` or locally unknown). -/
def Node.can_vote_for (n : Node) (blk : Block) : Bool :=
  if n.votes_seen.any (fun kv =>
      match lookupA n.blocks kv.1.1 with
      | some b => kv.1.2 == n.node_id && b.epoch == blk.epoch
      | none => false) then false
  else if blk.epoch < 0 then false
  else
    let chains := n.longest_notarized_chains
    if chains = [] then
      blk.parent_hash == HashVal.genesis || (lookupA n.blocks blk.parent_hash).isNone
    else
      chains.any (fun c => c.getLast? == some blk.parent_hash)

/-- `Node.propose`.  Outer `none` models a raised exception
(`ZeroDivisionError` on an empty roster, `OverflowError` from
`Block.hash`); inner `none` is the not-the-leader result.  The
`c.getLastD genesis` default covers the `chains[-1][-1]` indexing; the
inner chain is nonempty in every state the engine builds. -/
def Node.propose (n : Node) (epoch : Int) (node_ids : List String) (payload : List Nat) :
    Option (Node × Option Block) :=
  match leader_for_epoch epoch node_ids with
  | none => none
  | some leader =>
    if leader ≠ n.node_id then some (n, none)
    else
      let chains := n.longest_notarized_chains
      let parent_hash :=
        match chains.getLast? with
        | some c => c.getLastD HashVal.genesis
        | none => HashVal.genesis
      let blk : Block :=
        { parent_hash := parent_hash, epoch := epoch, proposer_id := n.node_id,
          payload := payload }
      match blk.hash? with
      | none => none
      | some bh =>
        some ({ n with
                  blocks := insertA n.blocks bh blk,
                  parent_of := insertA n.parent_of bh
                    (if blk.parent_hash = HashVal.genesis then none
                     else some blk.parent_hash) },
              some blk)

/-- `Node.observe_proposal`.  The block is recorded unconditionally; a vote
is produced iff `can_vote_for` allows.  `none` models the `OverflowError`
raised by `blk.hash()` before any state is mutated. -/
def Node.observe_proposal (n : Node) (blk : Block) : Option (Node × Option Vote) :=
  match blk.hash? with
  | none => none
  | some bh =>
    let n₁ := { n with
                  blocks := insertA n.blocks bh blk,
                  parent_of := insertA n.parent_of bh
                    (if blk.parent_hash = HashVal.genesis then none
                     else some blk.parent_hash) }
    if n₁.can_vote_for blk then
      let vote := n₁.sign_vote bh blk.epoch
      some ({ n₁ with votes_seen := insertA n₁.votes_seen (bh, n₁.node_id) vote },
            some vote)
    else some (n₁, none)

/-- One iteration of the first loop of `Node._try_finalize`: the loop
continues only while `cur` is a stored hash (`cur in self.blocks`), and
aborts the whole call when `cur` is not notarized.  Both the loop leaving
fewer than three hashes and the not-notarized early `return` make
`_try_finalize` a no-op, so a single `none` models both. -/
def notarStep (blocks : List (HashVal × Block)) (po : List (HashVal × Option HashVal))
    (notarized : List HashVal) : Option HashVal → Option (HashVal × Option HashVal)
  | none => none
  | some h =>
    if (lookupA blocks h).isSome = true ∧ h ∈ notarized then some (h, parentGet po h)
    else none

/-- The first loop of `Node._try_finalize`: walk back from the tip
collecting three hashes. -/
def gather3 (blocks : List (HashVal × Block)) (po : List (HashVal × Option HashVal))
    (notarized : List HashVal) (tip : HashVal) :
    Option (HashVal × HashVal × HashVal) :=
  match notarStep blocks po notarized (some tip) with
  | none => none
  | some (b3, c1) =>
    match notarStep blocks po notarized c1 with
    | none => none
    | some (b2, c2) =>
      match notarStep blocks po notarized c2 with
      | none => none
      | some (b1, _) => some (b3, b2, b1)

/-- The second loop of `Node._try_finalize`: finalize `b2` and walk its
ancestors, stopping at the first hash that is `None`, missing from
`blocks`, or already finalized.  Fuel as in `walkChain`. -/
def finalizeAncestors (blocks : List (HashVal × Block))
    (po : List (HashVal × Option HashVal)) :
    Nat → List HashVal → Option HashVal → List HashVal
  | 0, fin, _ => fin
  | _ + 1, fin, none => fin
  | fuel + 1, fin, some h =>
    if (lookupA blocks h).isSome ∧ h ∉ fin then
      finalizeAncestors blocks po fuel (insertS fin h) (parentGet po h)
    else fin

/-- `Node._try_finalize` over the four state components it reads
(it writes only `finalized`). -/
def tryFinalizeCore (blocks : List (HashVal × Block))
    (po : List (HashVal × Option HashVal)) (notarized : List HashVal)
    (fin : List HashVal) (tip : HashVal) : List HashVal :=
  match gather3 blocks po notarized tip with
  | none => fin
  | some (b3, b2, b1) =>
    match lookupA blocks b3, lookupA blocks b2, lookupA blocks b1 with
    | some blk3, some blk2, some blk1 =>
      if blk3.epoch = blk2.epoch + 1 ∧ blk2.epoch = blk1.epoch + 1 then
        finalizeAncestors blocks po (hashDepth b2 + 1) fin (some b2)
      else fin
    | _, _, _ => fin

/-- `Node._try_finalize`. -/
def Node.try_finalize (n : Node) (tip : HashVal) : Node :=
  { n with finalized :=
      tryFinalizeCore n.blocks n.parent_of n.notarized_blocks n.finalized tip }

/-- `Node.observe_vote`: verify the signature against the configured key,
dedup on `(block_hash, voter_id)`, record the vote, grow the aggregate,
and on `len(voters) >= 2f+1` mark notarized, attempt finalization and
return the aggregate. -/
def Node.observe_vote (n : Node) (vote : Vote) : Node × Option Notarization :=
  match lookupA n.public_keys vote.voter_id with
  | none => (n, none)
  | some pub =>
    if ¬ verify_signature pub ⟨vote.block_hash, vote.epoch, vote.voter_id⟩ vote.signature
    then (n, none)
    else if (lookupA n.votes_seen (vote.block_hash, vote.voter_id)).isSome then (n, none)
    else
      let n₁ := { n with votes_seen :=
                    insertA n.votes_seen (vote.block_hash, vote.voter_id) vote }
      let notz₀ :=
        match lookupA n₁.notarizations vote.block_hash with
        | some z => z
        | none => { block_hash := vote.block_hash, epoch := vote.epoch, voters := [] }
      let notz := { notz₀ with voters := insertS notz₀.voters vote.voter_id }
      let n₂ := { n₁ with notarizations := insertA n₁.notarizations vote.block_hash notz }
      if (notz.voters.length : Int) ≥ n₂.get_quorum then
        let n₃ := { n₂ with notarized_blocks := insertS n₂.notarized_blocks vote.block_hash }
        (n₃.try_finalize vote.block_hash, some notz)
      else (n₂, none)

/-- `StreamletNetwork` (streamlet.py). -/
structure StreamletNetwork where
  node_ids : List String
  f : Int
  nodes : List (String × Node)
deriving Repr

/-- A fresh replica: empty local view. -/
def initNode (nid : String) (key : Nat) (pubs : List (String × Nat)) (f : Int) : Node :=
  { node_id := nid, keys := ⟨key⟩, public_keys := pubs, f := f,
    blocks := [], parent_of := [], notarized_blocks := [], votes_seen := [],
    notarizations := [], finalized := [] }

/-- The public-key roster built by the `StreamletNetwork` constructor: one
fresh key handle per roster position. -/
def pubsOf (node_ids : List String) : List (String × Nat) :=
  node_ids.enum.map (fun p => (p.2, p.1))

/-- The `StreamletNetwork` constructor: generate a key pair per participant
and hand every node the full public roster.  Key handles are the roster
positions (distinct participants get distinct keys). -/
def freshNetwork (node_ids : List String) (f : Int) : StreamletNetwork :=
  { node_ids := node_ids, f := f,
    nodes := node_ids.enum.map (fun p => (p.2, initNode p.2 p.1 (pubsOf node_ids) f)) }

/-- The proposal-broadcast loop of `step_epoch`: deliver the block to every
node in roster order, collecting the emitted votes in that order.  `none`
propagates a raised exception (impossible once the proposer hashed the
block, kept for totality). -/
def broadcastProposal : List (String × Node) → Block →
    Option (List (String × Node) × List Vote)
  | [], _ => some ([], [])
  | (nid, nd) :: rest, blk =>
    match nd.observe_proposal blk with
    | none => none
    | some (nd', v?) =>
      match broadcastProposal rest blk with
      | none => none
      | some (rest', votes) =>
        some ((nid, nd') :: rest',
              match v? with
              | some v => v :: votes
              | none => votes)

/-- Deliver one vote to every node (`for node in self.nodes.values()`). -/
def deliverVoteAll (nodes : List (String × Node)) (v : Vote) : List (String × Node) :=
  nodes.map (fun p => (p.1, (p.2.observe_vote v).1))

/-- The vote-broadcast loop of `step_epoch`
(`for vote in votes: for node in nodes: node.observe_vote(vote)`). -/
def deliverVotes (nodes : List (String × Node)) (votes : List Vote) : List (String × Node) :=
  votes.foldl deliverVoteAll nodes

/-- `StreamletNetwork.step_epoch`.  `none` models a raised exception (which
leaves every replica's state as it was before the call, since `propose`
raises before mutating anything). -/
def StreamletNetwork.step_epoch (net : StreamletNetwork) (epoch : Int)
    (payload : List Nat) : Option StreamletNetwork :=
  match leader_for_epoch epoch net.node_ids with
  | none => none
  | some leader =>
    match lookupA net.nodes leader with
    | none => none
    | some nd =>
      match nd.propose epoch net.node_ids payload with
      | none => none
      | some (nd', prop?) =>
        let nodes₁ := insertA net.nodes leader nd'
        match prop? with
        | none => some { net with nodes := nodes₁ }
        | some blk =>
          match broadcastProposal nodes₁ blk with
          | none => none
          | some (nodes₂, votes) =>
            some { net with nodes := deliverVotes nodes₂ votes }

/-- `StreamletNetwork.finalized_by_all`: intersection of all replicas'
finalized sets (empty network gives the empty set). -/
def StreamletNetwork.finalized_by_all (net : StreamletNetwork) : List HashVal :=
  match net.nodes with
  | [] => []
  | (_, n₀) :: rest =>
    rest.foldl (fun acc p => acc.filter (fun h => h ∈ p.2.finalized)) n₀.finalized

/-- A run of the harness: `step_epoch` over a list of (epoch, payload)
pairs; `none` once any step raises. -/
def runSteps (net : StreamletNetwork) : List (Int × List Nat) → Option StreamletNetwork
  | [] => some net
  | (e, pay) :: rest =>
    match net.step_epoch e pay with
    | none => none
    | some net' => runSteps net' rest

/-- Harness-reachable states: obtained from a fresh network by some
sequence of epochs and payloads. -/
def NetReachable (node_ids : List String) (f : Int) (net : StreamletNetwork) : Prop :=
  ∃ steps, runSteps (freshNetwork node_ids f) steps = some net

/-! ### Association-list and set lemmas -/

theorem lookupA_insertA {κ ν : Type} [DecidableEq κ] (l : List (κ × ν)) (k k' : κ) (v : ν) :
    lookupA (insertA l k v) k' = if k = k' then some v else lookupA l k' := by
  induction l with
  | nil => simp [insertA, lookupA]
  | cons hd tl ih =>
    obtain ⟨k₀, v₀⟩ := hd
    by_cases h₀ : k₀ = k
    · subst h₀
      simp only [insertA, if_pos rfl, lookupA]
      by_cases h₁ : k₀ = k' <;> simp [h₁]
    · simp only [insertA, if_neg h₀, lookupA]
      by_cases h₁ : k₀ = k'
      · subst h₁
        have hne : ¬ k = k₀ := fun h => h₀ h.symm
        simp [lookupA, hne]
      · simp [lookupA, h₁, ih]

theorem mem_insertA {κ ν : Type} [DecidableEq κ] {l : List (κ × ν)} {k : κ} {v : ν}
    {p : κ × ν} (hp : p ∈ insertA l k v) : p = (k, v) ∨ p ∈ l := by
  induction l with
  | nil => simpa [insertA] using hp
  | cons hd tl ih =>
    obtain ⟨k₀, v₀⟩ := hd
    by_cases h₀ : k₀ = k
    · simp only [insertA, if_pos h₀, List.mem_cons] at hp
      rcases hp with h | h
      · exact Or.inl h
      · exact Or.inr (List.mem_cons_of_mem _ h)
    · simp only [insertA, if_neg h₀, List.mem_cons] at hp
      rcases hp with h | h
      · exact Or.inr (by simp [h])
      · rcases ih h with h' | h'
        · exact Or.inl h'
        · exact Or.inr (List.mem_cons_of_mem _ h')

theorem lookupA_mem {κ ν : Type} [DecidableEq κ] {l : List (κ × ν)} {k : κ} {v : ν}
    (h : lookupA l k = some v) : (k, v) ∈ l := by
  induction l with
  | nil => simp [lookupA] at h
  | cons hd tl ih =>
    obtain ⟨k₀, v₀⟩ := hd
    by_cases h₀ : k₀ = k
    · subst h₀
      rw [lookupA, if_pos rfl] at h
      cases h
      exact List.mem_cons_self _ _
    · simp only [lookupA, if_neg h₀] at h
      exact List.mem_cons_of_mem _ (ih h)

theorem lookupA_isSome_iff {κ ν : Type} [DecidableEq κ] {l : List (κ × ν)} {k : κ} :
    (lookupA l k).isSome = true ↔ ∃ v, (k, v) ∈ l := by
  constructor
  · intro h
    obtain ⟨v, hv⟩ := Option.isSome_iff_exists.mp h
    exact ⟨v, lookupA_mem hv⟩
  · rintro ⟨v, hv⟩
    induction l with
    | nil => simp at hv
    | cons hd tl ih =>
      obtain ⟨k₀, v₀⟩ := hd
      by_cases h₀ : k₀ = k
      · simp [lookupA, h₀]
      · rcases List.mem_cons.mp hv with h | h
        · exact absurd (congrArg Prod.fst h).symm h₀
        · simpa [lookupA, h₀] using ih h

theorem mem_insertS {α : Type} [DecidableEq α] {l : List α} {a b : α} :
    a ∈ insertS l b ↔ a = b ∨ a ∈ l := by
  unfold insertS
  by_cases h : b ∈ l
  · simp only [if_pos h]
    constructor
    · exact Or.inr
    · rintro (rfl | h') <;> [exact h; exact h']
  · simp only [if_neg h, List.mem_append, List.mem_singleton]
    tauto

theorem insertS_of_not_mem {α : Type} [DecidableEq α] {l : List α} {a : α} (h : a ∉ l) :
    insertS l a = l ++ [a] := by
  simp [insertS, h]

theorem insertS_of_mem {α : Type} [DecidableEq α] {l : List α} {a : α} (h : a ∈ l) :
    insertS l a = l := by
  simp [insertS, h]

theorem insertS_idem {α : Type} [DecidableEq α] (l : List α) (a : α) :
    insertS (insertS l a) a = insertS l a := by
  apply insertS_of_mem
  exact mem_insertS.mpr (Or.inl rfl)

theorem subset_insertS {α : Type} [DecidableEq α] (l : List α) (a : α) :
    l ⊆ insertS l a := fun _ hx => mem_insertS.mpr (Or.inr hx)

/-! ### Hash lemmas -/

theorem hash?_node {b : Block} {h : HashVal} (hb : b.hash? = some h) :
    h = HashVal.node b.parent_hash b.epoch b.proposer_id b.payload := by
  unfold Block.hash? at hb
  split at hb
  · exact (Option.some.inj hb).symm
  · exact absurd hb (by simp)

/-- `Block.hash?` determines the block: the digest preimage carries all four
fields (collision-freeness of the model). -/
theorem hash?_inj {b b' : Block} {h : HashVal} (h₁ : b.hash? = some h) (h₂ : b'.hash? = some h) :
    b = b' := by
  have e₁ := hash?_node h₁
  have e₂ := hash?_node h₂
  rw [e₁] at e₂
  cases b; cases b'
  simp only [HashVal.node.injEq] at e₂
  simp_all

/-- The epoch carried in a digest preimage. -/
def epochOf : HashVal → Int
  | .genesis => 0
  | .node _ e _ _ => e

theorem epochOf_of_hash {b : Block} {h : HashVal} (hb : b.hash? = some h) :
    epochOf h = b.epoch := by
  rw [hash?_node hb]; rfl

theorem hash?_ne_genesis {b : Block} (hb : b.hash? = some HashVal.genesis) : False := by
  have := hash?_node hb
  simp at this

/-! ### Structural parent-map invariant and chain-walk lemmas -/

/-- The property every `parent_of` entry written by the engine has: the key
is `hash(blk)` and the value is `blk.parent_hash` (or `none` for a
`GENESIS` parent), which is a structural subterm of the key. -/
def POEntryOKb : HashVal × Option HashVal → Bool
  | (.genesis, _) => false
  | (.node p _ _ _, v) => v == (if p = HashVal.genesis then none else some p)

def StructPO (po : List (HashVal × Option HashVal)) : Prop :=
  ∀ pr ∈ po, POEntryOKb pr = true

instance (po : List (HashVal × Option HashVal)) : Decidable (StructPO po) :=
  List.decidableBAll _ po

theorem structPO_parentGet {po : List (HashVal × Option HashVal)} (hpo : StructPO po)
    {h p : HashVal} (hg : parentGet po h = some p) : hashDepth p + 1 = hashDepth h := by
  unfold parentGet at hg
  rcases hl : lookupA po h with _ | v
  · rw [hl] at hg; exact absurd hg (by simp)
  · rw [hl] at hg
    have hmem := lookupA_mem hl
    have := hpo _ hmem
    cases h with
    | genesis => simp [POEntryOKb] at this
    | node q e i pay =>
      simp only [POEntryOKb, beq_iff_eq] at this
      subst this
      by_cases hq : q = HashVal.genesis
      · rw [if_pos hq] at hg; exact absurd hg (by simp)
      · rw [if_neg hq] at hg
        cases hg
        rfl

/-! ### The ancestor-finalization walk -/

theorem finalizeAncestors_none {blocks : List (HashVal × Block)}
    {po : List (HashVal × Option HashVal)} (fuel : Nat) (fin : List HashVal) :
    finalizeAncestors blocks po fuel fin none = fin := by
  cases fuel <;> simp [finalizeAncestors]

theorem finalizeAncestors_superset (blocks : List (HashVal × Block))
    (po : List (HashVal × Option HashVal)) :
    ∀ (fuel : Nat) (fin : List HashVal) (cur : Option HashVal),
      fin ⊆ finalizeAncestors blocks po fuel fin cur := by
  intro fuel
  induction fuel with
  | zero => intro fin cur; simp [finalizeAncestors]
  | succ f ih =>
    intro fin cur
    cases cur with
    | none => simp [finalizeAncestors]
    | some h =>
      simp only [finalizeAncestors]
      split
      · exact fun x hx => ih _ _ (subset_insertS fin h hx)
      · exact fun x hx => hx

theorem mem_finalizeAncestors_self {blocks : List (HashVal × Block)}
    {po : List (HashVal × Option HashVal)} {fuel : Nat} {fin : List HashVal} {h : HashVal}
    (hb : (lookupA blocks h).isSome = true) :
    h ∈ finalizeAncestors blocks po (fuel + 1) fin (some h) := by
  simp only [finalizeAncestors]
  split
  · exact finalizeAncestors_superset _ _ _ _ _ (mem_insertS.mpr (Or.inl rfl))
  · rename_i hcond
    rcases not_and_or.mp hcond with hc | hc
    · exact absurd hb hc
    · exact not_not.mp hc

theorem finalizeAncestors_idem (blocks : List (HashVal × Block))
    (po : List (HashVal × Option HashVal)) (fuel₁ fuel₂ : Nat) (fin : List HashVal)
    (b2 : HashVal) :
    finalizeAncestors blocks po fuel₂
        (finalizeAncestors blocks po (fuel₁ + 1) fin (some b2)) (some b2) =
      finalizeAncestors blocks po (fuel₁ + 1) fin (some b2) := by
  cases fuel₂ with
  | zero => simp [finalizeAncestors]
  | succ f₂ =>
    by_cases hb : (lookupA blocks b2).isSome = true
    · have hmem : b2 ∈ finalizeAncestors blocks po (fuel₁ + 1) fin (some b2) :=
        mem_finalizeAncestors_self hb
      simp only [finalizeAncestors]
      rw [if_neg]
      intro hc
      exact hc.2 hmem
    · simp only [finalizeAncestors]
      rw [if_neg]
      intro hc
      exact hb hc.1

/-- Parent-link reachability (zero or more `parent_of` steps). -/
inductive Anc (po : List (HashVal × Option HashVal)) : HashVal → HashVal → Prop
  | refl (h : HashVal) : Anc po h h
  | step (h p g : HashVal) : parentGet po h = some p → Anc po p g → Anc po h g

theorem finalizeAncestors_mem_anc {blocks : List (HashVal × Block)}
    {po : List (HashVal × Option HashVal)} :
    ∀ (fuel : Nat) (fin : List HashVal) (cur : Option HashVal) (g : HashVal),
      g ∈ finalizeAncestors blocks po fuel fin cur →
      g ∈ fin ∨ ∃ h, cur = some h ∧ Anc po h g := by
  intro fuel
  induction fuel with
  | zero => intro fin cur g hg; exact Or.inl hg
  | succ f ih =>
    intro fin cur g hg
    cases cur with
    | none => exact Or.inl hg
    | some h =>
      simp only [finalizeAncestors] at hg
      split at hg
      · rcases ih _ _ _ hg with hx | ⟨h', hh', ha⟩
        · rcases mem_insertS.mp hx with rfl | hx'
          · exact Or.inr ⟨g, rfl, Anc.refl g⟩
          · exact Or.inl hx'
        · exact Or.inr ⟨h, rfl, Anc.step h h' g hh' ha⟩
      · exact Or.inl hg

theorem Anc_mono {po po' : List (HashVal × Option HashVal)}
    (hmono : ∀ h p, parentGet po h = some p → parentGet po' h = some p)
    {w g : HashVal} (ha : Anc po w g) : Anc po' w g := by
  induction ha with
  | refl h => exact Anc.refl h
  | step h p g hp _ ih => exact Anc.step h p g (hmono _ _ hp) ih

/-- Which hashes the ancestor walk from `b2` newly finalizes: those reached
from `b2` by parent links through a path on which every hash is stored in
`blocks` and not yet finalized (the walk stops at the first hash failing
either condition). -/
inductive FinReach (blocks : List (HashVal × Block)) (po : List (HashVal × Option HashVal))
    (fin : List HashVal) : HashVal → HashVal → Prop
  | refl (h : HashVal) : (lookupA blocks h).isSome = true → h ∉ fin →
      FinReach blocks po fin h h
  | step (h p g : HashVal) : (lookupA blocks h).isSome = true → h ∉ fin →
      parentGet po h = some p → FinReach blocks po fin p g →
      FinReach blocks po fin h g

theorem FinReach_unins {blocks : List (HashVal × Block)}
    {po : List (HashVal × Option HashVal)} (hpo : StructPO po) {fin : List HashVal}
    {x : HashVal} :
    ∀ {h g : HashVal}, FinReach blocks po (insertS fin x) h g →
      hashDepth h < hashDepth x → FinReach blocks po fin h g := by
  intro h g hr
  induction hr with
  | refl h hb hnf =>
    intro _
    exact FinReach.refl h hb (fun hc => hnf (subset_insertS fin x hc))
  | step h p g hb hnf hp _ ih =>
    intro hd
    have hdp := structPO_parentGet hpo hp
    exact FinReach.step h p g hb (fun hc => hnf (subset_insertS fin x hc)) hp
      (ih (by omega))

theorem FinReach_ins {blocks : List (HashVal × Block)}
    {po : List (HashVal × Option HashVal)} (hpo : StructPO po) {fin : List HashVal}
    {x : HashVal} :
    ∀ {h g : HashVal}, FinReach blocks po fin h g →
      hashDepth h < hashDepth x → FinReach blocks po (insertS fin x) h g := by
  intro h g hr
  induction hr with
  | refl h hb hnf =>
    intro hd
    refine FinReach.refl h hb (fun hc => ?_)
    rcases mem_insertS.mp hc with rfl | hc'
    · exact absurd hd (lt_irrefl _)
    · exact hnf hc'
  | step h p g hb hnf hp _ ih =>
    intro hd
    have hdp := structPO_parentGet hpo hp
    refine FinReach.step h p g hb (fun hc => ?_) hp (ih (by omega))
    rcases mem_insertS.mp hc with rfl | hc'
    · exact absurd hd (lt_irrefl _)
    · exact hnf hc'

theorem finalizeAncestors_mem_iff {blocks : List (HashVal × Block)}
    {po : List (HashVal × Option HashVal)} (hpo : StructPO po) :
    ∀ (h : HashVal) (fin : List HashVal) (g : HashVal),
      (g ∈ finalizeAncestors blocks po (hashDepth h + 1) fin (some h) ↔
        g ∈ fin ∨ FinReach blocks po fin h g) := by
  have main : ∀ (d : Nat) (h : HashVal), hashDepth h ≤ d →
      ∀ (fin : List HashVal) (g : HashVal),
      (g ∈ finalizeAncestors blocks po (hashDepth h + 1) fin (some h) ↔
        g ∈ fin ∨ FinReach blocks po fin h g) := by
    intro d
    induction d with
    | zero =>
      intro h hd fin g
      simp only [finalizeAncestors]
      by_cases hcond : (lookupA blocks h).isSome = true ∧ h ∉ fin
      · rw [if_pos hcond]
        obtain ⟨hb, hnf⟩ := hcond
        rcases hpg : parentGet po h with _ | p
        · rw [finalizeAncestors_none]
          constructor
          · intro hg
            rcases mem_insertS.mp hg with rfl | hg'
            · exact Or.inr (FinReach.refl g hb hnf)
            · exact Or.inl hg'
          · rintro (hg | hg)
            · exact subset_insertS fin h hg
            · cases hg with
              | refl _ _ _ => exact mem_insertS.mpr (Or.inl rfl)
              | step _ p' _ _ _ hp' _ => rw [hpg] at hp'; exact absurd hp' (by simp)
        · have hdp := structPO_parentGet hpo hpg
          omega
      · rw [if_neg hcond]
        constructor
        · exact Or.inl
        · rintro (hg | hg)
          · exact hg
          · cases hg with
            | refl _ hb hnf => exact absurd ⟨hb, hnf⟩ hcond
            | step _ _ _ hb hnf _ _ => exact absurd ⟨hb, hnf⟩ hcond
    | succ d ih =>
      intro h hd fin g
      simp only [finalizeAncestors]
      by_cases hcond : (lookupA blocks h).isSome = true ∧ h ∉ fin
      · rw [if_pos hcond]
        obtain ⟨hb, hnf⟩ := hcond
        rcases hpg : parentGet po h with _ | p
        · rw [finalizeAncestors_none]
          constructor
          · intro hg
            rcases mem_insertS.mp hg with rfl | hg'
            · exact Or.inr (FinReach.refl g hb hnf)
            · exact Or.inl hg'
          · rintro (hg | hg)
            · exact subset_insertS fin h hg
            · cases hg with
              | refl _ _ _ => exact mem_insertS.mpr (Or.inl rfl)
              | step _ p' _ _ _ hp' _ => rw [hpg] at hp'; exact absurd hp' (by simp)
        · have hdp : hashDepth p + 1 = hashDepth h := structPO_parentGet hpo hpg
          have hstep : finalizeAncestors blocks po (hashDepth h) (insertS fin h) (some p) =
              finalizeAncestors blocks po (hashDepth p + 1) (insertS fin h) (some p) := by
            rw [hdp]
          rw [hstep, ih p (by omega) (insertS fin h) g]
          constructor
          · rintro (hg | hg)
            · rcases mem_insertS.mp hg with rfl | hg'
              · exact Or.inr (FinReach.refl g hb hnf)
              · exact Or.inl hg'
            · exact Or.inr (FinReach.step h p g hb hnf hpg
                (FinReach_unins hpo hg (by omega)))
          · rintro (hg | hg)
            · exact Or.inl (subset_insertS fin h hg)
            · cases hg with
              | refl _ _ _ => exact Or.inl (mem_insertS.mpr (Or.inl rfl))
              | step _ p' _ _ _ hp' hrest =>
                rw [hpg] at hp'
                cases hp'
                exact Or.inr (FinReach_ins hpo hrest (by omega))
      · rw [if_neg hcond]
        constructor
        · exact Or.inl
        · rintro (hg | hg)
          · exact hg
          · cases hg with
            | refl _ hb hnf => exact absurd ⟨hb, hnf⟩ hcond
            | step _ _ _ hb hnf _ _ => exact absurd ⟨hb, hnf⟩ hcond
  exact fun h => main (hashDepth h) h (le_refl _)

/-! ### The three-consecutive-notarized-blocks test -/

/-- The precondition checked by the first loop of `_try_finalize`: `b3` and
its two `parent_of` predecessors are stored and notarized. -/
def finalizationTriple (blocks : List (HashVal × Block))
    (po : List (HashVal × Option HashVal)) (notarized : List HashVal)
    (b3 b2 b1 : HashVal) : Prop :=
  (lookupA blocks b3).isSome = true ∧ b3 ∈ notarized ∧
  parentGet po b3 = some b2 ∧
  (lookupA blocks b2).isSome = true ∧ b2 ∈ notarized ∧
  parentGet po b2 = some b1 ∧
  (lookupA blocks b1).isSome = true ∧ b1 ∈ notarized

instance (blocks : List (HashVal × Block)) (po : List (HashVal × Option HashVal))
    (notarized : List HashVal) (b3 b2 b1 : HashVal) :
    Decidable (finalizationTriple blocks po notarized b3 b2 b1) := by
  unfold finalizationTriple
  infer_instance

theorem notarStep_some {blocks : List (HashVal × Block)}
    {po : List (HashVal × Option HashVal)} {notarized : List HashVal} {h : HashVal}
    (hb : (lookupA blocks h).isSome = true) (hn : h ∈ notarized) :
    notarStep blocks po notarized (some h) = some (h, parentGet po h) := by
  simp [notarStep, hb, hn]

theorem notarStep_inv {blocks : List (HashVal × Block)}
    {po : List (HashVal × Option HashVal)} {notarized : List HashVal}
    {cur : Option HashVal} {b : HashVal} {c : Option HashVal}
    (hs : notarStep blocks po notarized cur = some (b, c)) :
    cur = some b ∧ (lookupA blocks b).isSome = true ∧ b ∈ notarized ∧
      c = parentGet po b := by
  cases cur with
  | none => simp [notarStep] at hs
  | some h =>
    simp only [notarStep] at hs
    split at hs
    · rename_i hcond
      cases hs
      exact ⟨rfl, hcond.1, hcond.2, rfl⟩
    · exact absurd hs (by simp)

theorem gather3_eq_some_iff {blocks : List (HashVal × Block)}
    {po : List (HashVal × Option HashVal)} {notarized : List HashVal} {tip c3 c2 c1 : HashVal} :
    gather3 blocks po notarized tip = some (c3, c2, c1) ↔
      c3 = tip ∧ finalizationTriple blocks po notarized tip c2 c1 := by
  constructor
  · intro h
    unfold gather3 at h
    rcases hs3 : notarStep blocks po notarized (some tip) with _ | ⟨b3, d1⟩
    · rw [hs3] at h; exact absurd h (by simp)
    · rw [hs3] at h
      dsimp only at h
      rcases hs2 : notarStep blocks po notarized d1 with _ | ⟨b2, d2⟩
      · rw [hs2] at h; exact absurd h (by simp)
      · rw [hs2] at h
        dsimp only at h
        rcases hs1 : notarStep blocks po notarized d2 with _ | ⟨b1, d0⟩
        · rw [hs1] at h; exact absurd h (by simp)
        · rw [hs1] at h
          dsimp only at h
          cases h
          obtain ⟨ht, hb3, hn3, hd1⟩ := notarStep_inv hs3
          obtain ⟨hc1, hb2, hn2, hd2⟩ := notarStep_inv hs2
          obtain ⟨hc2, hb1, hn1, -⟩ := notarStep_inv hs1
          cases ht
          rw [hd1] at hc1
          rw [hd2] at hc2
          exact ⟨rfl, hb3, hn3, hc1, hb2, hn2, hc2, hb1, hn1⟩
  · rintro ⟨rfl, hb3, hn3, hp3, hb2, hn2, hp2, hb1, hn1⟩
    unfold gather3
    rw [notarStep_some hb3 hn3]
    dsimp only
    rw [hp3, notarStep_some hb2 hn2]
    dsimp only
    rw [hp2, notarStep_some hb1 hn1]

/-- The full finalization precondition: the triple, plus exactly
consecutive epochs of the stored blocks. -/
def finalizationEligible (blocks : List (HashVal × Block))
    (po : List (HashVal × Option HashVal)) (notarized : List HashVal)
    (b3 b2 b1 : HashVal) : Prop :=
  finalizationTriple blocks po notarized b3 b2 b1 ∧
  ∃ blk3 blk2 blk1, lookupA blocks b3 = some blk3 ∧ lookupA blocks b2 = some blk2 ∧
    lookupA blocks b1 = some blk1 ∧
    blk3.epoch = blk2.epoch + 1 ∧ blk2.epoch = blk1.epoch + 1

theorem tryFinalizeCore_mem_iff {blocks : List (HashVal × Block)}
    {po : List (HashVal × Option HashVal)} (hpo : StructPO po)
    (notarized fin : List HashVal) (tip : HashVal) (g : HashVal) :
    g ∈ tryFinalizeCore blocks po notarized fin tip ↔
      g ∈ fin ∨ ∃ b2 b1, finalizationEligible blocks po notarized tip b2 b1 ∧
        FinReach blocks po fin b2 g := by
  unfold tryFinalizeCore
  rcases hg3 : gather3 blocks po notarized tip with _ | ⟨b3, b2, b1⟩
  · constructor
    · exact Or.inl
    · rintro (h | ⟨b2', b1', ⟨htr, -⟩, -⟩)
      · exact h
      · have hsome := (@gather3_eq_some_iff blocks po notarized tip tip b2' b1').mpr ⟨rfl, htr⟩
        rw [hg3] at hsome
        exact absurd hsome (by simp)
  · obtain ⟨rfl, htr⟩ := gather3_eq_some_iff.mp hg3
    obtain ⟨h3b, -, hp3, h2b, -, hp2, h1b, -⟩ := htr
    obtain ⟨blk3, hblk3⟩ := Option.isSome_iff_exists.mp h3b
    obtain ⟨blk2, hblk2⟩ := Option.isSome_iff_exists.mp h2b
    obtain ⟨blk1, hblk1⟩ := Option.isSome_iff_exists.mp h1b
    dsimp only
    rw [hblk3, hblk2, hblk1]
    dsimp only
    by_cases hep : blk3.epoch = blk2.epoch + 1 ∧ blk2.epoch = blk1.epoch + 1
    · rw [if_pos hep]
      rw [finalizeAncestors_mem_iff hpo]
      constructor
      · rintro (h | h)
        · exact Or.inl h
        · exact Or.inr ⟨b2, b1,
            ⟨(gather3_eq_some_iff.mp hg3).2,
             blk3, blk2, blk1, hblk3, hblk2, hblk1, hep.1, hep.2⟩, h⟩
      · rintro (h | ⟨b2', b1', ⟨htr', -⟩, hr⟩)
        · exact Or.inl h
        · have hsome := (@gather3_eq_some_iff blocks po notarized b3 b3 b2' b1').mpr
            ⟨rfl, htr'⟩
          rw [hg3] at hsome
          cases hsome
          exact Or.inr hr
    · rw [if_neg hep]
      constructor
      · exact Or.inl
      · rintro (h | ⟨b2', b1', ⟨htr', blk3', blk2', blk1', hb3', hb2', hb1', he1, he2⟩, -⟩)
        · exact h
        · have hsome := (@gather3_eq_some_iff blocks po notarized b3 b3 b2' b1').mpr
            ⟨rfl, htr'⟩
          rw [hg3] at hsome
          cases hsome
          rw [hblk3] at hb3'; cases hb3'
          rw [hblk2] at hb2'; cases hb2'
          rw [hblk1] at hb1'; cases hb1'
          exact absurd ⟨he1, he2⟩ hep

theorem tryFinalizeCore_eq_of_eligible {blocks : List (HashVal × Block)}
    {po : List (HashVal × Option HashVal)} {notar : List HashVal} {tip b2 b1 : HashVal}
    (hel : finalizationEligible blocks po notar tip b2 b1) (fin : List HashVal) :
    tryFinalizeCore blocks po notar fin tip =
      finalizeAncestors blocks po (hashDepth b2 + 1) fin (some b2) := by
  obtain ⟨htr, blk3, blk2, blk1, hb3, hb2, hb1, he1, he2⟩ := hel
  have hg := (@gather3_eq_some_iff blocks po notar tip tip b2 b1).mpr ⟨rfl, htr⟩
  unfold tryFinalizeCore
  rw [hg]
  dsimp only
  rw [hb3, hb2, hb1]
  dsimp only
  rw [if_pos ⟨he1, he2⟩]

theorem tryFinalizeCore_superset (blocks : List (HashVal × Block))
    (po : List (HashVal × Option HashVal)) (notar fin : List HashVal) (tip : HashVal) :
    fin ⊆ tryFinalizeCore blocks po notar fin tip := by
  unfold tryFinalizeCore
  rcases gather3 blocks po notar tip with _ | ⟨b3, b2, b1⟩
  · exact fun x hx => hx
  · dsimp only
    rcases lookupA blocks b3 with _ | blk3 <;>
      rcases lookupA blocks b2 with _ | blk2 <;>
        rcases lookupA blocks b1 with _ | blk1 <;>
          dsimp only <;> try exact fun x hx => hx
    split
    · exact finalizeAncestors_superset _ _ _ _ _
    · exact fun x hx => hx

theorem FinReach_anc {blocks : List (HashVal × Block)}
    {po : List (HashVal × Option HashVal)} {fin : List HashVal} {h g : HashVal}
    (hr : FinReach blocks po fin h g) : Anc po h g := by
  induction hr with
  | refl h _ _ => exact Anc.refl h
  | step h p g _ _ hp _ ih => exact Anc.step h p g hp ih

/-! ### Single-replica reachability

Reachable states of one replica under an adversarial environment: any
sequence of `observe_proposal` and `observe_vote` calls.  Ed25519 is
unforgeable, so the only votes carrying a signature under the replica's own
key are the ones the replica itself produced in `observe_proposal` -- and
those are recorded in `votes_seen` at signing time, so re-delivering them is
rejected as a duplicate and changes nothing.  Restricting delivered votes
to signatures under other keys therefore loses no reachable states. -/

inductive NodeOp where
  | prop (b : Block) : NodeOp
  | vote (v : Vote) : NodeOp
deriving DecidableEq, Repr

def applyOp (n : Node) : NodeOp → Node
  | .prop b =>
    match n.observe_proposal b with
    | some p => p.1
    | none => n
  | .vote v => (n.observe_vote v).1

/-- Adversary capability: may deliver any block and any vote not signed
with the replica's own private key. -/
def opOK (key : Nat) : NodeOp → Bool
  | .prop _ => true
  | .vote v => v.signature.key != key

def runNodeOps (n : Node) (ops : List NodeOp) : Node := ops.foldl applyOp n

def NodeReachable (nid : String) (key : Nat) (pubs : List (String × Nat)) (f : Int)
    (n : Node) : Prop :=
  ∃ ops, (∀ op ∈ ops, opOK key op = true) ∧ runNodeOps (initNode nid key pubs f) ops = n

/-- Invariants of every reachable replica state. -/
structure NodeInv (nid : String) (key : Nat) (pubs : List (String × Nat)) (f : Int)
    (n : Node) : Prop where
  hid : n.node_id = nid
  hkeys : n.keys = ⟨key⟩
  hpubs : n.public_keys = pubs
  hf : n.f = f
  hblocks : ∀ pr ∈ n.blocks, Block.hash? pr.2 = some pr.1
  hpo : ∀ h, lookupA n.parent_of h = (lookupA n.blocks h).map
          (fun b => if b.parent_hash = HashVal.genesis then none else some b.parent_hash)
  hpoStruct : StructPO n.parent_of
  hownvb : ∀ h, (lookupA n.votes_seen (h, nid)).isSome = true →
      (lookupA n.blocks h).isSome = true
  hownvu : ∀ h₁ h₂ b₁ b₂, (lookupA n.votes_seen (h₁, nid)).isSome = true →
      (lookupA n.votes_seen (h₂, nid)).isSome = true → lookupA n.blocks h₁ = some b₁ →
      lookupA n.blocks h₂ = some b₂ → b₁.epoch = b₂.epoch → h₁ = h₂
  hnotz : ∀ pr ∈ n.notarizations, nid ∉ pr.2.voters
  hfin : ∀ g ∈ n.finalized, ∃ w, w ∈ n.finalized ∧ w ∈ n.notarized_blocks ∧
      Anc n.parent_of w g

theorem initNode_inv (nid : String) (key : Nat) (pubs : List (String × Nat)) (f : Int) :
    NodeInv nid key pubs f (initNode nid key pubs f) := by
  refine ⟨rfl, rfl, rfl, rfl, ?_, ?_, ?_, ?_, ?_, ?_, ?_⟩ <;>
    simp [initNode, lookupA, StructPO]

theorem POEntryOKb_of_hash {blk : Block} {bh : HashVal} (hh : blk.hash? = some bh) :
    POEntryOKb (bh, if blk.parent_hash = HashVal.genesis then none
      else some blk.parent_hash) = true := by
  rw [hash?_node hh]
  simp [POEntryOKb]

theorem lookupA_insertA_isSome {κ ν : Type} [DecidableEq κ] {l : List (κ × ν)} {k k' : κ}
    {v : ν} (h : (lookupA l k').isSome = true) :
    (lookupA (insertA l k v) k').isSome = true := by
  rw [lookupA_insertA]
  split <;> simp_all

/-- `parent_of` lookups that succeed keep their value across an engine
insert (the inserted entry is hash-determined). -/
theorem parentGet_insertA_mono {n : Node} (hblocks : ∀ pr ∈ n.blocks, Block.hash? pr.2 = some pr.1)
    (hpo : ∀ h, lookupA n.parent_of h = (lookupA n.blocks h).map
      (fun b => if b.parent_hash = HashVal.genesis then none else some b.parent_hash))
    {blk : Block} {bh : HashVal} (hh : blk.hash? = some bh) :
    ∀ h p, parentGet n.parent_of h = some p →
      parentGet (insertA n.parent_of bh
        (if blk.parent_hash = HashVal.genesis then none else some blk.parent_hash)) h =
        some p := by
  intro h p hg
  unfold parentGet at hg ⊢
  rw [lookupA_insertA]
  by_cases hbh : bh = h
  · subst hbh
    rw [if_pos rfl]
    rw [hpo bh] at hg
    rcases hb : lookupA n.blocks bh with _ | b
    · rw [hb] at hg; simp at hg
    · rw [hb] at hg
      have hbb : b = blk := hash?_inj (hblocks _ (lookupA_mem hb)) hh
      subst hbb
      simpa using hg
  · rw [if_neg hbh]
    exact hg

theorem canVote_no_prior {n : Node} {blk : Block} (hc : n.can_vote_for blk = true)
    {h : HashVal} {b : Block} (hv : (lookupA n.votes_seen (h, n.node_id)).isSome = true)
    (hb : lookupA n.blocks h = some b) : ¬ b.epoch = blk.epoch := by
  intro he
  have hscan : n.votes_seen.any (fun kv =>
      match lookupA n.blocks kv.1.1 with
      | some b => kv.1.2 == n.node_id && b.epoch == blk.epoch
      | none => false) = true := by
    rw [List.any_eq_true]
    obtain ⟨vt, hvt⟩ := Option.isSome_iff_exists.mp hv
    refine ⟨((h, n.node_id), vt), lookupA_mem hvt, ?_⟩
    dsimp only
    rw [hb]
    simp [he]
  unfold Node.can_vote_for at hc
  rw [hscan] at hc
  simp at hc

/-- Unfolded shape of a non-raising `observe_proposal` call. -/
theorem observe_proposal_eq {n : Node} {b : Block} {bh : HashVal} (hh : b.hash? = some bh) :
    ∃ n' v?, n.observe_proposal b = some (n', v?) ∧
      n'.node_id = n.node_id ∧ n'.keys = n.keys ∧ n'.public_keys = n.public_keys ∧
      n'.f = n.f ∧ n'.blocks = insertA n.blocks bh b ∧
      n'.parent_of = insertA n.parent_of bh
        (if b.parent_hash = HashVal.genesis then none else some b.parent_hash) ∧
      n'.notarizations = n.notarizations ∧
      n'.notarized_blocks = n.notarized_blocks ∧
      n'.finalized = n.finalized ∧
      ((v? = none ∧ n'.votes_seen = n.votes_seen) ∨
       (∃ v, v? = some v ∧
         v = ⟨bh, b.epoch, n.node_id, n.keys.sign ⟨bh, b.epoch, n.node_id⟩⟩ ∧
         n'.votes_seen = insertA n.votes_seen (bh, n.node_id) v ∧
         (∀ h bb, (lookupA n.votes_seen (h, n.node_id)).isSome = true →
           lookupA (insertA n.blocks bh b) h = some bb → ¬ bb.epoch = b.epoch))) := by
  unfold Node.observe_proposal
  rw [hh]
  dsimp only
  by_cases hc : Node.can_vote_for { n with
      blocks := insertA n.blocks bh b,
      parent_of := insertA n.parent_of bh
        (if b.parent_hash = HashVal.genesis then none else some b.parent_hash) } b = true
  · rw [if_pos hc]
    refine ⟨_, _, rfl, rfl, rfl, rfl, rfl, rfl, rfl, rfl, rfl, rfl, Or.inr ⟨_, rfl, rfl, rfl, ?_⟩⟩
    intro h bb hv hb
    exact canVote_no_prior hc hv hb
  · rw [if_neg hc]
    exact ⟨_, _, rfl, rfl, rfl, rfl, rfl, rfl, rfl, rfl, rfl, rfl, Or.inl ⟨rfl, rfl⟩⟩

theorem observe_proposal_inv {nid : String} {key : Nat} {pubs : List (String × Nat)}
    {f : Int} {n : Node} (hInv : NodeInv nid key pubs f n) (b : Block) :
    NodeInv nid key pubs f (applyOp n (NodeOp.prop b)) := by
  obtain ⟨hid, hkeys, hpubs, hf, hblocks, hpo, hpoS, hovb, hovu, hnz, hfin⟩ := hInv
  show NodeInv nid key pubs f
    (match n.observe_proposal b with
     | some p => p.1
     | none => n)
  rcases hh : b.hash? with _ | bh
  · simp only [Node.observe_proposal, hh]
    exact ⟨hid, hkeys, hpubs, hf, hblocks, hpo, hpoS, hovb, hovu, hnz, hfin⟩
  · obtain ⟨n', v?, heq, hid', hkeys', hpubs', hf', hblocks', hpo', hnotz', hnb', hfin',
      hvotes'⟩ := @observe_proposal_eq n b bh hh
    rw [heq]
    dsimp only
    have hblocksI : ∀ pr ∈ n'.blocks, Block.hash? pr.2 = some pr.1 := by
      rw [hblocks']
      intro pr hpr
      rcases mem_insertA hpr with rfl | hold
      · exact hh
      · exact hblocks _ hold
    have hpoI : ∀ h, lookupA n'.parent_of h = (lookupA n'.blocks h).map
        (fun bb => if bb.parent_hash = HashVal.genesis then none else some bb.parent_hash) := by
      intro h
      rw [hpo', hblocks', lookupA_insertA, lookupA_insertA]
      by_cases hbh : bh = h
      · rw [if_pos hbh, if_pos hbh]; rfl
      · rw [if_neg hbh, if_neg hbh]; exact hpo h
    have hpoSI : StructPO n'.parent_of := by
      rw [hpo']
      intro pr hpr
      rcases mem_insertA hpr with rfl | hold
      · exact POEntryOKb_of_hash hh
      · exact hpoS _ hold
    have hblk_stable : ∀ h, (lookupA n.votes_seen (h, nid)).isSome = true →
        ∀ bb, lookupA n'.blocks h = some bb → lookupA n.blocks h = some bb := by
      intro h hv bb hb
      rw [hblocks', lookupA_insertA] at hb
      by_cases hbh : bh = h
      · rw [if_pos hbh] at hb
        cases hb
        subst hbh
        have hb0 : (lookupA n.blocks bh).isSome = true := hovb _ hv
        obtain ⟨b₀, hb₀⟩ := Option.isSome_iff_exists.mp hb0
        have hb0b : b₀ = b := hash?_inj (hblocks _ (lookupA_mem hb₀)) hh
        rw [← hb0b]; exact hb₀
      · rw [if_neg hbh] at hb
        exact hb
    have hancmono : ∀ w g, Anc n.parent_of w g → Anc n'.parent_of w g := by
      intro w g ha
      rw [hpo']
      exact Anc_mono (parentGet_insertA_mono hblocks hpo hh) ha
    have hfinI : ∀ g ∈ n'.finalized, ∃ w, w ∈ n'.finalized ∧ w ∈ n'.notarized_blocks ∧
        Anc n'.parent_of w g := by
      rw [hfin', hnb']
      intro g hg
      obtain ⟨w, hw₁, hw₂, hw₃⟩ := hfin g hg
      exact ⟨w, hw₁, hw₂, hancmono _ _ hw₃⟩
    rcases hvotes' with ⟨hvnone, hvs⟩ | ⟨v, hvsome, hvdef, hvs, hnoprior⟩
    · refine ⟨hid'.trans hid, hkeys'.trans hkeys, hpubs'.trans hpubs, hf'.trans hf,
        hblocksI, hpoI, hpoSI, ?_, ?_, ?_, hfinI⟩
      · intro h hv
        rw [hvs] at hv
        rw [hblocks']
        exact lookupA_insertA_isSome (hovb _ hv)
      · intro h₁ h₂ b₁ b₂ hv₁ hv₂ hb₁ hb₂ he
        rw [hvs] at hv₁ hv₂
        exact hovu h₁ h₂ b₁ b₂ hv₁ hv₂ (hblk_stable _ hv₁ _ hb₁) (hblk_stable _ hv₂ _ hb₂) he
      · rw [hnotz']; exact hnz
    · refine ⟨hid'.trans hid, hkeys'.trans hkeys, hpubs'.trans hpubs, hf'.trans hf,
        hblocksI, hpoI, hpoSI, ?_, ?_, ?_, hfinI⟩
      · intro h hv
        rw [hvs, ← hid, lookupA_insertA] at hv
        rw [hblocks']
        by_cases hbh : (bh, n.node_id) = (h, n.node_id)
        · cases hbh
          rw [lookupA_insertA, if_pos rfl]
          rfl
        · rw [if_neg hbh] at hv
          rw [hid] at hv
          exact lookupA_insertA_isSome (hovb _ hv)
      · intro h₁ h₂ b₁ b₂ hv₁ hv₂ hb₁ hb₂ he
        rw [hvs, ← hid, lookupA_insertA] at hv₁ hv₂
        by_cases hc₁ : (bh, n.node_id) = (h₁, n.node_id)
        · by_cases hc₂ : (bh, n.node_id) = (h₂, n.node_id)
          · cases hc₁; cases hc₂; rfl
          · exfalso
            cases hc₁
            rw [if_neg hc₂] at hv₂
            rw [hblocks', lookupA_insertA, if_pos rfl] at hb₁
            cases hb₁
            rw [hblocks'] at hb₂
            exact hnoprior h₂ b₂ hv₂ hb₂ he.symm
        · rw [if_neg hc₁] at hv₁
          by_cases hc₂ : (bh, n.node_id) = (h₂, n.node_id)
          · exfalso
            cases hc₂
            rw [hblocks', lookupA_insertA, if_pos rfl] at hb₂
            cases hb₂
            rw [hblocks'] at hb₁
            exact hnoprior h₁ b₁ hv₁ hb₁ he
          · rw [if_neg hc₂] at hv₂
            rw [hid] at hv₁ hv₂
            exact hovu h₁ h₂ b₁ b₂ hv₁ hv₂ (hblk_stable _ hv₁ _ hb₁) (hblk_stable _ hv₂ _ hb₂) he
      · rw [hnotz']; exact hnz

/-- Invariant preservation for the accepted-vote state shape shared by the
quorum and non-quorum branches of `observe_vote`. -/
theorem observe_vote_accept_inv {nid : String} {key : Nat} {pubs : List (String × Nat)}
    {f : Int} {n : Node} (hInv : NodeInv nid key pubs f n) {v : Vote}
    (hvne : v.voter_id ≠ nid) (z' : Notarization) (hz' : nid ∉ z'.voters)
    (NB FIN : List HashVal)
    (hNF : (NB = n.notarized_blocks ∧ FIN = n.finalized) ∨
           (NB = insertS n.notarized_blocks v.block_hash ∧
            FIN = tryFinalizeCore n.blocks n.parent_of NB n.finalized v.block_hash)) :
    NodeInv nid key pubs f
      { n with votes_seen := insertA n.votes_seen (v.block_hash, v.voter_id) v,
               notarizations := insertA n.notarizations v.block_hash z',
               notarized_blocks := NB, finalized := FIN } := by
  obtain ⟨hid, hkeys, hpubs, hf, hblocks, hpo, hpoS, hovb, hovu, hnz, hfin⟩ := hInv
  have hvkey : ∀ h : HashVal, ¬ ((v.block_hash, v.voter_id) = (h, nid)) := by
    intro h hp
    exact hvne (congrArg Prod.snd hp)
  refine ⟨hid, hkeys, hpubs, hf, hblocks, hpo, hpoS, ?_, ?_, ?_, ?_⟩
  · intro h hv
    dsimp only at hv ⊢
    rw [lookupA_insertA, if_neg (hvkey h)] at hv
    exact hovb _ hv
  · intro h₁ h₂ b₁ b₂ hv₁ hv₂ hb₁ hb₂ he
    dsimp only at hv₁ hv₂ hb₁ hb₂
    rw [lookupA_insertA, if_neg (hvkey h₁)] at hv₁
    rw [lookupA_insertA, if_neg (hvkey h₂)] at hv₂
    exact hovu h₁ h₂ b₁ b₂ hv₁ hv₂ hb₁ hb₂ he
  · intro pr hpr
    dsimp only at hpr
    rcases mem_insertA hpr with rfl | hold
    · exact hz'
    · exact hnz _ hold
  · rcases hNF with ⟨hNB, hFIN⟩ | ⟨hNB, hFIN⟩
    · subst hNB; subst hFIN
      intro g hg
      dsimp only at hg ⊢
      obtain ⟨w, hw₁, hw₂, hw₃⟩ := hfin g hg
      exact ⟨w, hw₁, hw₂, hw₃⟩
    · subst hNB; subst hFIN
      intro g hg
      dsimp only at hg ⊢
      rcases (tryFinalizeCore_mem_iff hpoS (insertS n.notarized_blocks v.block_hash)
          n.finalized v.block_hash g).mp hg with hgf | ⟨b2, b1, hel, hr⟩
      · obtain ⟨w, hw₁, hw₂, hw₃⟩ := hfin g hgf
        refine ⟨w, ?_, ?_, hw₃⟩
        · exact tryFinalizeCore_superset _ _ _ _ _ hw₁
        · exact subset_insertS _ _ hw₂
      · refine ⟨b2, ?_, ?_, FinReach_anc hr⟩
        · rw [tryFinalizeCore_eq_of_eligible hel]
          exact mem_finalizeAncestors_self hel.1.2.2.2.1
        · exact hel.1.2.2.2.2.1

theorem observe_vote_inv {nid : String} {key : Nat} {pubs : List (String × Nat)} {f : Int}
    {n : Node} (hself : lookupA pubs nid = some key) (hInv : NodeInv nid key pubs f n)
    {v : Vote} (hop : v.signature.key ≠ key) :
    NodeInv nid key pubs f (n.observe_vote v).1 := by
  have hInv0 := hInv
  obtain ⟨hid, hkeys, hpubs, hf, hblocks, hpo, hpoS, hovb, hovu, hnz, hfin⟩ := hInv
  unfold Node.observe_vote
  rcases hpk : lookupA n.public_keys v.voter_id with _ | pub
  · exact ⟨hid, hkeys, hpubs, hf, hblocks, hpo, hpoS, hovb, hovu, hnz, hfin⟩
  · dsimp only
    by_cases hver : verify_signature pub ⟨v.block_hash, v.epoch, v.voter_id⟩ v.signature = true
    · rw [if_neg (not_not_intro hver)]
      have hvne : v.voter_id ≠ nid := by
        intro hvid
        rw [hpubs, hvid, hself] at hpk
        have hpub : pub = key := (Option.some.inj hpk).symm
        unfold verify_signature at hver
        rw [Bool.and_eq_true] at hver
        have hsigkey : v.signature.key = pub := by
          have hk := hver.1
          simpa using hk
        exact hop (hsigkey.trans hpub)
      by_cases hdup : (lookupA n.votes_seen (v.block_hash, v.voter_id)).isSome = true
      · rw [if_pos hdup]
        exact ⟨hid, hkeys, hpubs, hf, hblocks, hpo, hpoS, hovb, hovu, hnz, hfin⟩
      · rw [if_neg hdup]
        rcases hnzk : lookupA n.notarizations v.block_hash with _ | z
        · dsimp only
          have hz' : nid ∉ insertS ([] : List String) v.voter_id := by
            intro hc
            rcases mem_insertS.mp hc with rfl | hc'
            · exact hvne rfl
            · simp at hc'
          split
          · exact observe_vote_accept_inv hInv0 hvne _ hz' _ _ (Or.inr ⟨rfl, rfl⟩)
          · exact observe_vote_accept_inv hInv0 hvne _ hz' _ _ (Or.inl ⟨rfl, rfl⟩)
        · dsimp only
          have hz' : nid ∉ insertS z.voters v.voter_id := by
            intro hc
            rcases mem_insertS.mp hc with rfl | hc'
            · exact hvne rfl
            · exact hnz _ (lookupA_mem hnzk) hc'
          split
          · exact observe_vote_accept_inv hInv0 hvne _ hz' _ _ (Or.inr ⟨rfl, rfl⟩)
          · exact observe_vote_accept_inv hInv0 hvne _ hz' _ _ (Or.inl ⟨rfl, rfl⟩)
    · rw [if_pos hver]
      exact ⟨hid, hkeys, hpubs, hf, hblocks, hpo, hpoS, hovb, hovu, hnz, hfin⟩

theorem runNodeOps_inv {nid : String} {key : Nat} {pubs : List (String × Nat)} {f : Int}
    (hself : lookupA pubs nid = some key) :
    ∀ (ops : List NodeOp) (n : Node), (∀ op ∈ ops, opOK key op = true) →
      NodeInv nid key pubs f n → NodeInv nid key pubs f (runNodeOps n ops) := by
  intro ops
  induction ops with
  | nil => intro n _ hInv; exact hInv
  | cons op rest ih =>
    intro n hok hInv
    have hop := hok op (List.mem_cons_self _ _)
    have hrest : ∀ op ∈ rest, opOK key op = true :=
      fun o ho => hok o (List.mem_cons_of_mem _ ho)
    show NodeInv nid key pubs f (runNodeOps (applyOp n op) rest)
    refine ih (applyOp n op) hrest ?_
    cases op with
    | prop b => exact observe_proposal_inv hInv b
    | vote v =>
      have hne : v.signature.key ≠ key := by
        simpa [opOK] using hop
      exact observe_vote_inv hself hInv hne

theorem nodeInv_of_reachable {nid : String} {key : Nat} {pubs : List (String × Nat)}
    {f : Int} {n : Node} (hself : lookupA pubs nid = some key)
    (hreach : NodeReachable nid key pubs f n) : NodeInv nid key pubs f n := by
  obtain ⟨ops, hok, hrun⟩ := hreach
  rw [← hrun]
  exact runNodeOps_inv hself ops _ hok (initNode_inv nid key pubs f)

theorem observe_proposal_no_second_vote {n : Node}
    (hblocks : ∀ pr ∈ n.blocks, Block.hash? pr.2 = some pr.1)
    {blk : Block} {h : HashVal} {b : Block}
    (hv : (lookupA n.votes_seen (h, n.node_id)).isSome = true)
    (hb : lookupA n.blocks h = some b) (he : b.epoch = blk.epoch) :
    ∃ n', n.observe_proposal blk = some (n', none) := by
  have hhb : Block.hash? b = some h := hblocks _ (lookupA_mem hb)
  have hrange : 0 ≤ b.epoch ∧ b.epoch < 18446744073709551616 := by
    unfold Block.hash? at hhb
    split at hhb
    · assumption
    · exact absurd hhb (by simp)
  have hhblk : blk.hash? =
      some (HashVal.node blk.parent_hash blk.epoch blk.proposer_id blk.payload) := by
    unfold Block.hash?
    rw [if_pos (by rw [← he]; exact hrange)]
  obtain ⟨n', v?, heq, hid', hkeys', hpubs', hf', hblocks', hpo', hnotz', hnb', hfin',
    hvotes'⟩ := @observe_proposal_eq n blk _ hhblk
  rcases hvotes' with ⟨hvnone, -⟩ | ⟨v, hvsome, hvdef, hvs, hnoprior⟩
  · exact ⟨n', by rw [hvnone] at heq; exact heq⟩
  · exfalso
    by_cases hbh : HashVal.node blk.parent_hash blk.epoch blk.proposer_id blk.payload = h
    · refine hnoprior h blk hv ?_ rfl
      rw [lookupA_insertA, if_pos hbh]
    · refine hnoprior h b hv ?_ he
      rw [lookupA_insertA, if_neg hbh]
      exact hb

/-- C4 (amended): in every state of a replica reachable by any sequence of
`observe_proposal` and `observe_vote` calls (unforgeable signatures), every
finalized hash is notarized or an ancestor, through `parent_of` links, of a
hash that is both finalized and notarized.  The unamended claim
`finalized ⊆ notarized_blocks` is refuted by `C4_counterexample`. -/
theorem C4_finalized_amended (nid : String) (key : Nat) (pubs : List (String × Nat))
    (f : Int) (n : Node) (hself : lookupA pubs nid = some key)
    (hreach : NodeReachable nid key pubs f n) :
    ∀ g ∈ n.finalized, ∃ w, w ∈ n.finalized ∧ w ∈ n.notarized_blocks ∧
      Anc n.parent_of w g :=
  (nodeInv_of_reachable hself hreach).hfin

/-- C8: in every reachable replica state, at most one `votes_seen` key
`(h, node_id)` refers to a stored block of any given epoch; consequently a
second proposal carrying an already-voted epoch (including re-delivery of
the same block) records the block but returns no vote. -/
theorem C8_one_vote_per_epoch (nid : String) (key : Nat) (pubs : List (String × Nat))
    (f : Int) (n : Node) (hself : lookupA pubs nid = some key)
    (hreach : NodeReachable nid key pubs f n) :
    (∀ h₁ h₂ b₁ b₂, (lookupA n.votes_seen (h₁, n.node_id)).isSome = true →
        (lookupA n.votes_seen (h₂, n.node_id)).isSome = true →
        lookupA n.blocks h₁ = some b₁ → lookupA n.blocks h₂ = some b₂ →
        b₁.epoch = b₂.epoch → h₁ = h₂) ∧
    (∀ blk h b, (lookupA n.votes_seen (h, n.node_id)).isSome = true →
        lookupA n.blocks h = some b → b.epoch = blk.epoch →
        ∃ n', n.observe_proposal blk = some (n', none)) := by
  have hInv := nodeInv_of_reachable hself hreach
  constructor
  · intro h₁ h₂ b₁ b₂ hv₁ hv₂ hb₁ hb₂ he
    rw [hInv.hid] at hv₁ hv₂
    exact hInv.hownvu h₁ h₂ b₁ b₂ hv₁ hv₂ hb₁ hb₂ he
  · intro blk h b hv hb he
    exact observe_proposal_no_second_vote hInv.hblocks hv hb he

/-- C10: a replica's own vote is recorded in `votes_seen` by
`observe_proposal` without touching `notarizations`; re-delivering that vote
hits the duplicate check and is a no-op; and in every reachable state the
replica's own id is absent from every notarization aggregate, so quorum at
a replica is met entirely by other replicas' votes. -/
theorem C10_own_vote_not_counted (nid : String) (key : Nat) (pubs : List (String × Nat))
    (f : Int) (n : Node) (hself : lookupA pubs nid = some key)
    (hreach : NodeReachable nid key pubs f n) :
    (∀ h z, lookupA n.notarizations h = some z → n.node_id ∉ z.voters) ∧
    (∀ blk n' v, n.observe_proposal blk = some (n', some v) →
      n'.notarizations = n.notarizations ∧
      (lookupA n'.votes_seen (v.block_hash, n.node_id)).isSome = true ∧
      n'.observe_vote v = (n', none)) := by
  have hInv := nodeInv_of_reachable hself hreach
  constructor
  · intro h z hz
    rw [hInv.hid]
    exact hInv.hnotz _ (lookupA_mem hz)
  · intro blk n' v hobs
    rcases hhblk : blk.hash? with _ | bh
    · rw [Node.observe_proposal, hhblk] at hobs
      exact absurd hobs (by simp)
    · obtain ⟨n'', v?, heq, hid', hkeys', hpubs', hf', hblocks', hpo', hnotz', hnb', hfin',
        hvotes'⟩ := @observe_proposal_eq n blk _ hhblk
      rw [heq] at hobs
      cases hobs
      rcases hvotes' with ⟨hvnone, -⟩ | ⟨v₀, hvsome, hvdef, hvs, -⟩
      · exact absurd hvnone (by simp)
      · cases hvsome
        refine ⟨hnotz', ?_, ?_⟩
        · rw [hvs, show v.block_hash = bh from by rw [hvdef], lookupA_insertA, if_pos rfl]
          rfl
        · have hvoter : v.voter_id = n.node_id := by rw [hvdef]
          have hbhash : v.block_hash = bh := by rw [hvdef]
          have hpk' : lookupA n'.public_keys v.voter_id = some key := by
            rw [hpubs', hInv.hpubs, hvoter, hInv.hid]
            exact hself
          unfold Node.observe_vote
          rw [hpk']
          dsimp only
          have hver : verify_signature key
              ⟨v.block_hash, v.epoch, v.voter_id⟩ v.signature = true := by
            rw [hvdef, hInv.hkeys]
            simp [verify_signature, Ed25519KeyPair.sign]
          rw [if_neg (not_not_intro hver)]
          have hdup : (lookupA n'.votes_seen (v.block_hash, v.voter_id)).isSome = true := by
            rw [hvs, hvoter, hbhash, lookupA_insertA, if_pos rfl]
            rfl
          rw [if_pos hdup]

theorem isNone_eq_false_of_isSome {α : Type} {o : Option α} (h : o.isSome = true) :
    o.isNone = false := by
  cases o
  · simp at h
  · rfl

theorem isNone_eq_true_of_not_isSome {α : Type} {o : Option α} (h : ¬ o.isSome = true) :
    o.isNone = true := by
  cases o
  · rfl
  · exact absurd rfl h

theorem isSome_eq_false_of_isNone {α : Type} {o : Option α} (h : o.isNone = true) :
    o.isSome = false := by
  cases o
  · rfl
  · simp at h

theorem isNone_eq_true_of_isSome_eq_false {α : Type} {o : Option α} (h : o.isSome = false) :
    o.isNone = true := by
  cases o
  · rfl
  · simp at h

/-! ### Characterization of `observe_vote` -/

/-- The acceptance test of `observe_vote` (known voter, valid signature,
not a duplicate), read off lines 130-139 of streamlet.py. -/
def voteChecks (n : Node) (v : Vote) : Bool :=
  match lookupA n.public_keys v.voter_id with
  | none => false
  | some pub =>
    verify_signature pub ⟨v.block_hash, v.epoch, v.voter_id⟩ v.signature &&
    (lookupA n.votes_seen (v.block_hash, v.voter_id)).isNone

/-- The aggregate `observe_vote` starts from: the stored notarization for
the block, or a fresh empty one. -/
def baseNotz (n : Node) (v : Vote) : Notarization :=
  match lookupA n.notarizations v.block_hash with
  | some z => z
  | none => { block_hash := v.block_hash, epoch := v.epoch, voters := [] }

/-- The voter set after `notz.voters.add(vote.voter_id)`. -/
def postVoters (n : Node) (v : Vote) : List String :=
  insertS (baseNotz n v).voters v.voter_id

def postNotz (n : Node) (v : Vote) : Notarization :=
  { baseNotz n v with voters := postVoters n v }

theorem voteChecks_true_iff {n : Node} {v : Vote} :
    voteChecks n v = true ↔
      ∃ pub, lookupA n.public_keys v.voter_id = some pub ∧
        verify_signature pub ⟨v.block_hash, v.epoch, v.voter_id⟩ v.signature = true ∧
        (lookupA n.votes_seen (v.block_hash, v.voter_id)).isSome = false := by
  unfold voteChecks
  rcases hpk : lookupA n.public_keys v.voter_id with _ | pub
  · constructor
    · intro hc; exact absurd hc (by simp)
    · rintro ⟨pub, hpub, -⟩
      exact absurd hpub (by simp)
  · dsimp only
    rw [Bool.and_eq_true]
    constructor
    · rintro ⟨h₁, h₂⟩
      exact ⟨pub, rfl, h₁, isSome_eq_false_of_isNone h₂⟩
    · rintro ⟨pub', hpub', h₁, h₂⟩
      cases hpub'
      exact ⟨h₁, isNone_eq_true_of_isSome_eq_false h₂⟩

/-- Full case analysis of `observe_vote`: rejection leaves the state
untouched; an accepted vote records it and grows the aggregate; the
notarization is returned exactly when the updated voter count is at least
`2f+1`. -/
theorem observe_vote_eq (n : Node) (v : Vote) :
    (voteChecks n v = false ∧ n.observe_vote v = (n, none)) ∨
    (voteChecks n v = true ∧
      ((¬ (((postVoters n v).length : Int) ≥ 2 * n.f + 1)) ∧
        n.observe_vote v =
          ({ n with votes_seen := insertA n.votes_seen (v.block_hash, v.voter_id) v,
                    notarizations := insertA n.notarizations v.block_hash (postNotz n v) },
           none) ∨
       ((((postVoters n v).length : Int) ≥ 2 * n.f + 1) ∧
        n.observe_vote v =
          (Node.try_finalize
            { n with votes_seen := insertA n.votes_seen (v.block_hash, v.voter_id) v,
                     notarizations := insertA n.notarizations v.block_hash (postNotz n v),
                     notarized_blocks := insertS n.notarized_blocks v.block_hash }
            v.block_hash,
           some (postNotz n v))))) := by
  unfold Node.observe_vote
  rcases hpk : lookupA n.public_keys v.voter_id with _ | pub
  · refine Or.inl ⟨?_, rfl⟩
    unfold voteChecks
    rw [hpk]
  · dsimp only [ne_eq]
    by_cases hver : verify_signature pub ⟨v.block_hash, v.epoch, v.voter_id⟩ v.signature = true
    · rw [if_neg (not_not_intro hver)]
      by_cases hdup : (lookupA n.votes_seen (v.block_hash, v.voter_id)).isSome = true
      · refine Or.inl ⟨?_, by rw [if_pos hdup]⟩
        unfold voteChecks
        rw [hpk]
        dsimp only
        rw [hver]
        simp only [Bool.true_and]
        exact isNone_eq_false_of_isSome hdup
      · rw [if_neg hdup]
        have hchecks : voteChecks n v = true := by
          unfold voteChecks
          rw [hpk]
          dsimp only
          rw [hver]
          simp only [Bool.true_and]
          exact isNone_eq_true_of_not_isSome hdup
        refine Or.inr ⟨hchecks, ?_⟩
        rcases hnzk : lookupA n.notarizations v.block_hash with _ | z
        · dsimp only
          have hbase : baseNotz n v = ⟨v.block_hash, v.epoch, []⟩ := by
            unfold baseNotz
            rw [hnzk]
          have hpv : postVoters n v = insertS ([] : List String) v.voter_id := by
            unfold postVoters
            rw [hbase]
          have hpn : postNotz n v = ⟨v.block_hash, v.epoch,
              insertS ([] : List String) v.voter_id⟩ := by
            unfold postNotz
            rw [hbase, hpv]
          split
          · rename_i hq
            refine Or.inr ⟨?_, ?_⟩
            · rw [hpv]; exact hq
            · rw [hpn]
          · rename_i hq
            refine Or.inl ⟨?_, ?_⟩
            · rw [hpv]; exact hq
            · rw [hpn]
        · dsimp only
          have hbase : baseNotz n v = z := by
            unfold baseNotz
            rw [hnzk]
          have hpv : postVoters n v = insertS z.voters v.voter_id := by
            unfold postVoters
            rw [hbase]
          have hpn : postNotz n v = { z with voters := insertS z.voters v.voter_id } := by
            unfold postNotz
            rw [hbase, hpv]
          split
          · rename_i hq
            refine Or.inr ⟨?_, ?_⟩
            · rw [hpv]; exact hq
            · rw [hpn]
          · rename_i hq
            refine Or.inl ⟨?_, ?_⟩
            · rw [hpv]; exact hq
            · rw [hpn]
    · refine Or.inl ⟨?_, by rw [if_pos hver]⟩
      unfold voteChecks
      rw [hpk]
      dsimp only
      rw [Bool.eq_false_iff.mpr hver]
      rfl

theorem observe_vote_of_checks_false {n : Node} {v : Vote} (hc : voteChecks n v = false) :
    n.observe_vote v = (n, none) := by
  rcases observe_vote_eq n v with ⟨-, heq⟩ | ⟨hchecks, -⟩
  · exact heq
  · rw [hchecks] at hc
    exact absurd hc (by simp)

/-- C7: `observe_vote` rejects silently and atomically — an unknown voter,
an invalid signature, or an already-recorded `(block, voter)` pair returns
nothing and leaves the entire replica state unchanged; and re-delivering
any vote after it has been processed once is a no-op, so a duplicate
increments the voter count exactly once. -/
theorem C7_vote_rejection_atomic (n : Node) (v : Vote) :
    ((lookupA n.public_keys v.voter_id = none ∨
      (∃ pub, lookupA n.public_keys v.voter_id = some pub ∧
        verify_signature pub ⟨v.block_hash, v.epoch, v.voter_id⟩ v.signature = false) ∨
      (lookupA n.votes_seen (v.block_hash, v.voter_id)).isSome = true) →
      n.observe_vote v = (n, none)) ∧
    (∀ n₁ r, n.observe_vote v = (n₁, r) → n₁.observe_vote v = (n₁, none)) := by
  constructor
  · intro hrej
    refine observe_vote_of_checks_false ?_
    unfold voteChecks
    rcases hpk : lookupA n.public_keys v.voter_id with _ | pub
    · rfl
    · dsimp only
      rcases hrej with hnone | ⟨pub', hpub', hbad⟩ | hdup
      · rw [hpk] at hnone; exact absurd hnone (by simp)
      · rw [hpk] at hpub'
        cases hpub'
        rw [hbad]
        rfl
      · rw [isNone_eq_false_of_isSome hdup]
        simp
  · intro n₁ r heq
    rcases observe_vote_eq n v with ⟨-, heq'⟩ | ⟨hchecks, hcase⟩
    · rw [heq'] at heq
      cases heq
      exact heq'
    · obtain ⟨pub, hpub, hver, -⟩ := voteChecks_true_iff.mp hchecks
      have hdup₁ : (lookupA n₁.votes_seen (v.block_hash, v.voter_id)).isSome = true := by
        rcases hcase with ⟨-, h₂⟩ | ⟨-, h₂⟩ <;> rw [h₂] at heq <;> cases heq
        · dsimp only
          rw [lookupA_insertA, if_pos rfl]
          rfl
        · show (lookupA (Node.try_finalize _ _).votes_seen _).isSome = true
          unfold Node.try_finalize
          dsimp only
          rw [lookupA_insertA, if_pos rfl]
          rfl
      have hpub₁ : lookupA n₁.public_keys v.voter_id = some pub := by
        rcases hcase with ⟨-, h₂⟩ | ⟨-, h₂⟩ <;> rw [h₂] at heq <;> cases heq
        · exact hpub
        · show lookupA (Node.try_finalize _ _).public_keys _ = some pub
          unfold Node.try_finalize
          exact hpub
      refine observe_vote_of_checks_false ?_
      unfold voteChecks
      rw [hpub₁]
      dsimp only
      rw [isNone_eq_false_of_isSome hdup₁]
      simp

/-- C9: a block with a negative epoch makes `observe_proposal` raise
`OverflowError` (modelled `none`): `Block.hash()` encodes the epoch with
`to_bytes(8, "big")` before `can_vote_for`'s defensive `epoch < 0` check
can run, so the call aborts instead of silently rejecting. -/
theorem C9_negative_epoch_raises (n : Node) (blk : Block) (hneg : blk.epoch < 0) :
    n.observe_proposal blk = none := by
  have hh : blk.hash? = none := by
    unfold Block.hash?
    rw [if_neg]
    intro hc
    omega
  unfold Node.observe_proposal
  rw [hh]

/-- C6 (amended): an accepted vote returns the notarization exactly when
the updated voter set has size at least `2f+1` — including votes accepted
after quorum was already reached, not only the first crossing (the
unamended claim is refuted by `C6_counterexample`); any accepted vote below
quorum, and any rejected vote, returns nothing. -/
theorem C6_notarization_return_amended (n : Node) (v : Vote) (n' : Node)
    (r : Option Notarization) (h : n.observe_vote v = (n', r)) :
    (r.isSome = true ↔
      (voteChecks n v = true ∧ ((postVoters n v).length : Int) ≥ 2 * n.f + 1)) ∧
    (∀ z, r = some z → z.voters = postVoters n v) := by
  rcases observe_vote_eq n v with ⟨hchecks, heq⟩ | ⟨hchecks, hcase⟩
  · rw [heq] at h
    cases h
    constructor
    · simp only [Option.isSome_none]
      constructor
      · intro hc; exact absurd hc (by simp)
      · rintro ⟨hc, -⟩
        rw [hchecks] at hc
        exact absurd hc (by simp)
    · intro z hz; exact absurd hz (by simp)
  · rcases hcase with ⟨hq, heq⟩ | ⟨hq, heq⟩ <;> rw [heq] at h <;> cases h
    · constructor
      · simp only [Option.isSome_none]
        constructor
        · intro hc; exact absurd hc (by simp)
        · rintro ⟨-, hc⟩; exact absurd hc hq
      · intro z hz; exact absurd hz (by simp)
    · constructor
      · constructor
        · intro _; exact ⟨hchecks, hq⟩
        · intro _; simp
      · intro z hz
        cases Option.some.inj hz
        rfl

/-- C2 (amended): after an `observe_vote` call, a hash is finalized iff it
was already finalized, or the call notarized its block `B3` with `B3` and
its two `parent_of` predecessors `B2`, `B1` stored, notarized and of
exactly consecutive epochs, and the hash is reached from `B2` by parent
links along a path of stored, not-yet-finalized hashes — the walk stops at
the first missing or already-finalized ancestor, so not every stored
ancestor of `B2` is finalized (the unamended claim is refuted by
`C2_counterexample`). -/
theorem C2_finalization_amended (n : Node) (v : Vote) (n' : Node)
    (r : Option Notarization) (hpo : StructPO n.parent_of)
    (h : n.observe_vote v = (n', r)) :
    ∀ g, g ∈ n'.finalized ↔ g ∈ n.finalized ∨
      (r.isSome = true ∧ ∃ b2 b1,
        finalizationEligible n.blocks n.parent_of
          (insertS n.notarized_blocks v.block_hash) v.block_hash b2 b1 ∧
        FinReach n.blocks n.parent_of n.finalized b2 g) := by
  intro g
  rcases observe_vote_eq n v with ⟨-, heq⟩ | ⟨-, hcase⟩
  · rw [heq] at h
    cases h
    simp
  · rcases hcase with ⟨-, heq⟩ | ⟨-, heq⟩ <;> rw [heq] at h <;> cases h
    · simp
    · show g ∈ (Node.try_finalize _ _).finalized ↔ _
      unfold Node.try_finalize
      dsimp only
      rw [tryFinalizeCore_mem_iff hpo]
      simp

/-! ### Concrete scenarios

Scaffolding for counterexamples and witnesses: a four-replica roster as
built by `StreamletNetwork(["n1","n2","n3","n4"], f=1)`, and hand-delivered
blocks and votes. -/

def roster4 : List String := ["n1", "n2", "n3", "n4"]

def pubs4 : List (String × Nat) := pubsOf roster4

def node1 : Node := initNode "n1" 0 pubs4 1

/-- A vote on `(h, e)` by `vid`, signed with key handle `k`. -/
def mkVoteBy (k : Nat) (vid : String) (h : HashVal) (e : Int) : Vote :=
  ⟨h, e, vid, ⟨k, ⟨h, e, vid⟩⟩⟩

/-- A chain of six blocks rooted at `GENESIS` with consecutive epochs
0..5, all proposed by `"p"` (the engine does not authenticate proposers). -/
def xblk : Block := ⟨HashVal.genesis, 0, "p", []⟩

def hx : HashVal := HashVal.node HashVal.genesis 0 "p" []

def b1blk : Block := ⟨hx, 1, "p", []⟩

def hb1 : HashVal := HashVal.node hx 1 "p" []

def b2blk : Block := ⟨hb1, 2, "p", []⟩

def hb2 : HashVal := HashVal.node hb1 2 "p" []

def b3blk : Block := ⟨hb2, 3, "p", []⟩

def hb3 : HashVal := HashVal.node hb2 3 "p" []

def b4blk : Block := ⟨hb3, 4, "p", []⟩

def hb4 : HashVal := HashVal.node hb3 4 "p" []

def b5blk : Block := ⟨hb4, 5, "p", []⟩

def hb5 : HashVal := HashVal.node hb4 5 "p" []

/-- Quorum votes (`f = 1`, quorum 3) for a hash from `n2`, `n3`, `n4`. -/
def votes3 (h : HashVal) (e : Int) : List NodeOp :=
  [.vote (mkVoteBy 1 "n2" h e), .vote (mkVoteBy 2 "n3" h e), .vote (mkVoteBy 3 "n4" h e)]

/-! C4 counterexample scenario: `x, b1, b2, b3` are all delivered, then
`b1, b2, b3` are notarized by adversarial quorum votes; notarizing `b3`
finalizes `b2` and walks down through `b1` and the never-notarized `x`. -/

def c4ops : List NodeOp :=
  [.prop xblk, .prop b1blk, .prop b2blk, .prop b3blk] ++
    votes3 hb1 1 ++ votes3 hb2 2 ++ votes3 hb3 3

def c4node : Node := runNodeOps node1 c4ops

/-- C4 counterexample: a replica state reachable by `observe_proposal` and
`observe_vote` calls in which the hash of `x` is finalized but not
notarized — `finalized ⊆ notarized_blocks` fails. -/
theorem C4_counterexample :
    NodeReachable "n1" 0 pubs4 1 c4node ∧
    hx ∈ c4node.finalized ∧ hx ∉ c4node.notarized_blocks :=
  ⟨⟨c4ops, by decide, rfl⟩, by decide, by decide⟩

/-! C2 counterexample scenario: as in C4 but `x` is withheld until `b1`,
`b2`, `b3` are already notarized (so finalization stops at the missing
`x`); then `x`, `b4`, `b5` are delivered and `b4`, `b5` notarized.  The
call notarizing `b5` satisfies the claim's premises with `B3 = b5`,
`B2 = b4`, `B1 = b3`, and `x` is by then a stored ancestor of `b4`, yet it
never enters `finalized` (the walk stops at already-finalized `b3`). -/

def c2ops : List NodeOp :=
  [.prop b1blk, .prop b2blk, .prop b3blk] ++
    votes3 hb1 1 ++ votes3 hb2 2 ++ votes3 hb3 3 ++
    [.prop xblk, .prop b4blk, .prop b5blk] ++ votes3 hb4 4 ++
    [.vote (mkVoteBy 1 "n2" hb5 5), .vote (mkVoteBy 2 "n3" hb5 5)]

def c2pre : Node := runNodeOps node1 c2ops

def c2lastvote : Vote := mkVoteBy 3 "n4" hb5 5

/-- C2 counterexample: an `observe_vote` call that notarizes `B3 = b5`
whose parent `B2 = b4` and grandparent `B1 = b3` are stored and notarized
with exactly consecutive epochs, while `x` is a stored ancestor of `B2`;
the call does not add `x` to `finalized`. -/
theorem C2_counterexample :
    NodeReachable "n1" 0 pubs4 1 c2pre ∧
    hb5 ∉ c2pre.notarized_blocks ∧
    (Node.observe_vote c2pre c2lastvote).2.isSome = true ∧
    hb5 ∈ (Node.observe_vote c2pre c2lastvote).1.notarized_blocks ∧
    lookupA c2pre.blocks hb5 = some b5blk ∧
    parentGet c2pre.parent_of hb5 = some hb4 ∧
    lookupA c2pre.blocks hb4 = some b4blk ∧ hb4 ∈ c2pre.notarized_blocks ∧
    parentGet c2pre.parent_of hb4 = some hb3 ∧
    lookupA c2pre.blocks hb3 = some b3blk ∧ hb3 ∈ c2pre.notarized_blocks ∧
    b5blk.epoch = b4blk.epoch + 1 ∧ b4blk.epoch = b3blk.epoch + 1 ∧
    parentGet c2pre.parent_of hb3 = some hb2 ∧
    parentGet c2pre.parent_of hb2 = some hb1 ∧
    parentGet c2pre.parent_of hb1 = some hx ∧
    lookupA c2pre.blocks hx = some xblk ∧
    hx ∉ (Node.observe_vote c2pre c2lastvote).1.finalized :=
  ⟨⟨c2ops, by decide, rfl⟩, by decide⟩

/-! C5 counterexample scenario: three valid roster votes for a hash the
replica never stored. -/

def ghostHash : HashVal := HashVal.node HashVal.genesis 0 "ghost" []

def c5node : Node := runNodeOps node1 (votes3 ghostHash 0)

/-- C5 counterexample: a reachable replica state whose `notarized_blocks`
contains a hash with no entry in `blocks` (indeed `blocks` is empty) —
`notarized_blocks ⊆ keys(blocks)` fails under adversarial vote delivery. -/
theorem C5_counterexample :
    NodeReachable "n1" 0 pubs4 1 c5node ∧
    ghostHash ∈ c5node.notarized_blocks ∧
    lookupA c5node.blocks ghostHash = none ∧ c5node.blocks = [] :=
  ⟨⟨votes3 ghostHash 0, by decide, rfl⟩, by decide, by decide, by decide⟩

/-! C6 counterexample scenario: a five-replica roster so that a fourth
distinct voter can be accepted after the 2f+1 = 3 quorum was already
crossed. -/

def roster5 : List String := ["n1", "n2", "n3", "n4", "n5"]

def pubs5 : List (String × Nat) := pubsOf roster5

def c6mid : Node := runNodeOps (initNode "n1" 0 pubs5 1) (votes3 ghostHash 0)

def c6v5 : Vote := mkVoteBy 4 "n5" ghostHash 0

/-- C6 counterexample: the block is already notarized (quorum was reached
by an earlier vote), the next vote is newly accepted and merely grows the
aggregate from 3 to 4 voters — yet `observe_vote` returns the notarization
again instead of nothing. -/
theorem C6_counterexample :
    NodeReachable "n1" 0 pubs5 1 c6mid ∧
    ghostHash ∈ c6mid.notarized_blocks ∧
    voteChecks c6mid c6v5 = true ∧
    (postVoters c6mid c6v5).length = 4 ∧
    (Node.observe_vote c6mid c6v5).2.isSome = true :=
  ⟨⟨votes3 ghostHash 0, by decide, rfl⟩, by decide, by decide, by decide, by decide⟩

/-! C3 scenario: one epoch of the four-replica network, with the leader's
proposal delivered to every replica; `n4` is faulty-silent, so only the
votes of `n1`, `n2`, `n3` are broadcast (to every replica). -/

def c3block : Block := ⟨HashVal.genesis, 0, "n1", []⟩

def hc3 : HashVal := HashVal.node HashVal.genesis 0 "n1" []

def c3v (k : Nat) (vid : String) : Vote := mkVoteBy k vid hc3 0

/-- Delivery helper: `observe_proposal` for epoch-0 blocks never raises;
the default is never used. -/
def deliverProp (n : Node) (b : Block) : Node × Option Vote :=
  (n.observe_proposal b).getD (n, none)

def c3start1 : Node :=
  ((Node.propose node1 0 roster4 []).getD (node1, none)).1

def c3d1 : Node × Option Vote := deliverProp c3start1 c3block

def c3d2 : Node × Option Vote := deliverProp (initNode "n2" 1 pubs4 1) c3block

def c3d3 : Node × Option Vote := deliverProp (initNode "n3" 2 pubs4 1) c3block

def c3d4 : Node × Option Vote := deliverProp (initNode "n4" 3 pubs4 1) c3block

/-- The three broadcast votes (the faulty `n4` emits none). -/
def c3bcast : List Vote := [c3v 0 "n1", c3v 1 "n2", c3v 2 "n3"]

def c3recv (n : Node) : Node := c3bcast.foldl (fun m v => (m.observe_vote v).1) n

def c3f1 : Node := c3recv c3d1.1

def c3f2 : Node := c3recv c3d2.1

def c3f3 : Node := c3recv c3d3.1

def c3f4 : Node := c3recv c3d4.1

/-- C3: with `n = 4, f = 1` and one faulty-silent voter, the epoch-0
proposal is delivered to all, `n1`, `n2`, `n3` emit votes, and every
emitted vote reaches every replica — yet the block does **not** enter the
notarized set of any non-faulty replica: each voter's own vote is excluded
from its aggregate, leaving 2 < 3 = 2f+1.  Only the silent `n4`
notarizes. -/
theorem C3_one_faulty_voter_blocks_notarization :
    Node.propose node1 0 roster4 [] = some (c3start1, some c3block) ∧
    c3d1.2 = some (c3v 0 "n1") ∧ c3d2.2 = some (c3v 1 "n2") ∧
    c3d3.2 = some (c3v 2 "n3") ∧
    hc3 ∉ c3f1.notarized_blocks ∧ hc3 ∉ c3f2.notarized_blocks ∧
    hc3 ∉ c3f3.notarized_blocks ∧ hc3 ∈ c3f4.notarized_blocks :=
  by decide

/-! ### Witnesses -/

def c8node : Node := runNodeOps node1 [.prop c3block]

theorem C8_one_vote_per_epoch_witness :
    ∃ n', Node.observe_proposal c8node c3block = some (n', none) :=
  (C8_one_vote_per_epoch "n1" 0 pubs4 1 c8node (by decide)
    ⟨[.prop c3block], by decide, rfl⟩).2 c3block hc3 c3block (by decide) (by decide) rfl

theorem C10_own_vote_not_counted_witness :
    Node.observe_vote c8node (c3v 0 "n1") = (c8node, none) :=
  ((C10_own_vote_not_counted "n1" 0 pubs4 1 node1 (by decide)
    ⟨[], by decide, rfl⟩).2 c3block c8node (c3v 0 "n1") (by decide)).2.2

theorem C4_finalized_amended_witness :
    ∃ w, w ∈ c4node.finalized ∧ w ∈ c4node.notarized_blocks ∧
      Anc c4node.parent_of w hx :=
  C4_finalized_amended "n1" 0 pubs4 1 c4node (by decide) ⟨c4ops, by decide, rfl⟩
    hx (by decide)

def c7forged : Vote := ⟨hc3, 0, "n2", ⟨5, ⟨hc3, 0, "n2"⟩⟩⟩

theorem C7_vote_rejection_atomic_witness :
    Node.observe_vote node1 c7forged = (node1, none) :=
  (C7_vote_rejection_atomic node1 c7forged).1 (Or.inr (Or.inl ⟨1, by decide, by decide⟩))

theorem C9_negative_epoch_raises_witness :
    Node.observe_proposal node1 ⟨HashVal.genesis, -1, "n2", []⟩ = none :=
  C9_negative_epoch_raises node1 ⟨HashVal.genesis, -1, "n2", []⟩ (by decide)

theorem C6_notarization_return_amended_witness :
    (Node.observe_vote c6mid c6v5).2.isSome = true :=
  ((C6_notarization_return_amended c6mid c6v5 (Node.observe_vote c6mid c6v5).1
    (Node.observe_vote c6mid c6v5).2 rfl).1).mpr ⟨by decide, by decide⟩

def c2wpre : Node := runNodeOps node1
  ([.prop xblk, .prop b1blk, .prop b2blk, .prop b3blk] ++
    votes3 hb1 1 ++ votes3 hb2 2 ++
    [.vote (mkVoteBy 1 "n2" hb3 3), .vote (mkVoteBy 2 "n3" hb3 3)])

def c2wvote : Vote := mkVoteBy 3 "n4" hb3 3

theorem C2_finalization_amended_witness :
    hb2 ∈ (Node.observe_vote c2wpre c2wvote).1.finalized :=
  (C2_finalization_amended c2wpre c2wvote (Node.observe_vote c2wpre c2wvote).1
      (Node.observe_vote c2wpre c2wvote).2 (by decide) rfl hb2).mpr
    (Or.inr ⟨by decide, hb2, hb1,
      ⟨by decide, b3blk, b2blk, b1blk, by decide, by decide, by decide, by decide,
        by decide⟩,
      FinReach.refl hb2 (by decide) (by decide)⟩)

/-! ### The network harness invariant

Every harness-reachable network is *symmetric*: all replicas agree on
`blocks`, `parent_of`, `notarized_blocks`, `finalized` and on the key set
of `votes_seen` (a shared `View`), and each replica's notarization
aggregates hold exactly the other replicas' votes.  Within one step all
replicas take the same vote decision, every proposal is voted by all
replicas or by none, and per epoch at most one block ever gathers votes —
which yields consensus safety. -/

structure View where
  blocks : List (HashVal × Block)
  po : List (HashVal × Option HashVal)
  votes : List (HashVal × String)
  notar : List HashVal
  fin : List HashVal

/-- The voters of `h` other than `nid`, in arrival order, extracted from
the chronological list of accepted votes. -/
def votersFor (votes : List (HashVal × String)) (h : HashVal) (nid : String) : List String :=
  (votes.filter (fun p => p.1 == h && p.2 != nid)).map Prod.snd

/-- A replica's notarization aggregate for `h` (empty when absent). -/
def notzVoters (nz : List (HashVal × Notarization)) (h : HashVal) : List String :=
  match lookupA nz h with
  | some z => z.voters
  | none => []

/-- How one replica's state realizes the shared view. -/
def NodeOK (P : List (String × Nat)) (f : Int) (V : View) (key : Nat) (nid : String)
    (n : Node) : Prop :=
  n.node_id = nid ∧ n.keys = ⟨key⟩ ∧ n.public_keys = P ∧ n.f = f ∧
  n.blocks = V.blocks ∧ n.parent_of = V.po ∧
  n.notarized_blocks = V.notar ∧ n.finalized = V.fin ∧
  (∀ k, (lookupA n.votes_seen k).isSome = true ↔ k ∈ V.votes) ∧
  (∀ h, notzVoters n.notarizations h = votersFor V.votes h nid)

/-- Invariants of the shared view itself. -/
structure ViewOK (R : List String) (V : View) : Prop where
  hI1 : ∀ pr ∈ V.blocks, Block.hash? pr.2 = some pr.1
  hI2 : ∀ h, lookupA V.po h = (lookupA V.blocks h).map
      (fun b => if b.parent_hash = HashVal.genesis then none else some b.parent_hash)
  hI2s : StructPO V.po
  hI3 : ∀ p ∈ V.votes, p.2 ∈ R ∧ (lookupA V.blocks p.1).isSome = true
  hI4 : ∀ p ∈ V.votes, ∀ u ∈ R, ((p.1, u) : HashVal × String) ∈ V.votes
  hI5 : ∀ h₁ h₂ u, ((h₁, u) : HashVal × String) ∈ V.votes →
      ((h₂, u) : HashVal × String) ∈ V.votes → epochOf h₁ = epochOf h₂ → h₁ = h₂
  hI6 : ∀ h ∈ V.notar, ∃ u, ((h, u) : HashVal × String) ∈ V.votes
  hI7 : ∀ pr ∈ V.blocks, pr.2.parent_hash = HashVal.genesis ∨ pr.2.parent_hash ∈ V.notar
  hI8 : ∀ h ∈ V.notar, (lookupA V.blocks h).isSome = true
  hI9 : ∀ h ∈ V.fin, h ∈ V.notar

/-- The harness invariant: a shared view realized by every replica, with
the replica map keyed exactly by the roster. -/
def NetInv (R : List String) (f : Int) (net : StreamletNetwork) : Prop :=
  net.node_ids = R ∧ net.f = f ∧
  ∃ (V : View) (g : Nat × String → Node),
    ViewOK R V ∧
    net.nodes = R.enum.map (fun p => (p.2, g p)) ∧
    (∀ p ∈ R.enum, NodeOK (pubsOf R) f V p.1 p.2 (g p))

/-! Roster/`enum` lemmas. -/

theorem enumFrom_map_snd {α : Type} : ∀ (l : List α) (k : Nat),
    (l.enumFrom k).map Prod.snd = l := by
  intro l
  induction l with
  | nil => intro k; rfl
  | cons a t ih =>
    intro k
    show (a :: (t.enumFrom (k + 1)).map Prod.snd) = a :: t
    rw [ih]

theorem snd_mem_of_mem_enumFrom {α : Type} : ∀ {l : List α} {k : Nat} {p : Nat × α},
    p ∈ l.enumFrom k → p.2 ∈ l := by
  intro l
  induction l with
  | nil => intro k p hp; simp [List.enumFrom] at hp
  | cons a t ih =>
    intro k p hp
    rcases List.mem_cons.mp hp with rfl | hp'
    · exact List.mem_cons_self _ _
    · exact List.mem_cons_of_mem _ (ih hp')

theorem mem_enumFrom_of_mem {α : Type} : ∀ {l : List α} (k : Nat) {x : α},
    x ∈ l → ∃ i, (i, x) ∈ l.enumFrom k := by
  intro l
  induction l with
  | nil => intro k x hx; simp at hx
  | cons a t ih =>
    intro k x hx
    rcases List.mem_cons.mp hx with rfl | hx'
    · exact ⟨k, List.mem_cons_self _ _⟩
    · obtain ⟨i, hi⟩ := ih (k + 1) hx'
      exact ⟨i, List.mem_cons_of_mem _ hi⟩

theorem lookupA_enumFrom_map {β : Type} (F : Nat × String → β) :
    ∀ (l : List String) (k : Nat), l.Nodup → ∀ {i : Nat} {nid : String},
      (i, nid) ∈ l.enumFrom k →
      lookupA ((l.enumFrom k).map (fun p => (p.2, F p))) nid = some (F (i, nid)) := by
  intro l
  induction l with
  | nil => intro k _ i nid hp; simp [List.enumFrom] at hp
  | cons a t ih =>
    intro k hnd i nid hp
    have hnd' := List.nodup_cons.mp hnd
    rcases List.mem_cons.mp hp with heq | hp'
    · cases heq
      show (if a = a then _ else _) = _
      rw [if_pos rfl]
    · have hne : a ≠ nid := by
        intro hc
        subst hc
        exact hnd'.1 (snd_mem_of_mem_enumFrom hp')
      show (if a = nid then _ else _) = _
      rw [if_neg hne]
      exact ih (k + 1) hnd'.2 hp'

theorem lookupA_pubsOf {R : List String} (hnd : R.Nodup) {i : Nat} {nid : String}
    (hp : (i, nid) ∈ R.enum) : lookupA (pubsOf R) nid = some i :=
  lookupA_enumFrom_map Prod.fst R 0 hnd hp

theorem insertA_enumFrom_map (F : Nat × String → Node) (nd : Node) :
    ∀ (l : List String) (k : Nat), l.Nodup → ∀ {i : Nat} {nid : String},
      (i, nid) ∈ l.enumFrom k →
      insertA ((l.enumFrom k).map (fun p => (p.2, F p))) nid nd =
        (l.enumFrom k).map (fun p => (p.2, if p.2 = nid then nd else F p)) := by
  intro l
  induction l with
  | nil => intro k _ i nid hp; simp [List.enumFrom] at hp
  | cons a t ih =>
    intro k hnd i nid hp
    have hnd' := List.nodup_cons.mp hnd
    have hexp : insertA (((a :: t).enumFrom k).map (fun p => (p.2, F p))) nid nd =
        if a = nid then (nid, nd) :: (t.enumFrom (k + 1)).map (fun p => (p.2, F p))
        else (a, F (k, a)) :: insertA ((t.enumFrom (k + 1)).map (fun p => (p.2, F p))) nid nd :=
      rfl
    have hexp2 : ((a :: t).enumFrom k).map (fun p => (p.2, if p.2 = nid then nd else F p)) =
        (a, if a = nid then nd else F (k, a)) ::
          (t.enumFrom (k + 1)).map (fun p => (p.2, if p.2 = nid then nd else F p)) := rfl
    rw [hexp, hexp2]
    rcases List.mem_cons.mp hp with heq | hp'
    · have hn : nid = a := congrArg Prod.snd heq
      have hi : i = k := congrArg Prod.fst heq
      subst hn
      subst hi
      rw [if_pos rfl, if_pos rfl]
      congr 1
      refine (List.map_congr_left ?_).symm
      intro p hpmem
      have hmem : p.2 ∈ t := snd_mem_of_mem_enumFrom hpmem
      have hne : ¬ p.2 = nid := by
        intro hc
        rw [hc] at hmem
        exact hnd'.1 hmem
      rw [if_neg hne]
    · have hne : a ≠ nid := by
        intro hc
        subst hc
        exact hnd'.1 (snd_mem_of_mem_enumFrom hp')
      rw [if_neg hne, if_neg hne, ih (k + 1) hnd'.2 hp']

theorem nodup_snd_enumFrom {l : List String} (hnd : l.Nodup) (k : Nat) :
    ((l.enumFrom k).map Prod.snd).Nodup := by
  rw [enumFrom_map_snd]
  exact hnd

theorem filter_ne_length {α : Type} [DecidableEq α] :
    ∀ {l : List α} {x : α}, l.Nodup → x ∈ l →
      (l.filter (fun u => u ≠ x)).length = l.length - 1 := by
  intro l
  induction l with
  | nil => intro x _ hx; simp at hx
  | cons a t ih =>
    intro x hnd hx
    have hnd' := List.nodup_cons.mp hnd
    rcases List.mem_cons.mp hx with rfl | hx'
    · have hall : t.filter (fun u => u ≠ x) = t := by
        refine List.filter_eq_self.mpr ?_
        intro b hb
        simp only [ne_eq, decide_eq_true_eq]
        intro hc
        rw [hc] at hb
        exact hnd'.1 hb
      have hstep : (x :: t).filter (fun u => u ≠ x) = t.filter (fun u => u ≠ x) := by
        simp [List.filter_cons]
      rw [hstep, hall]
      simp
    · have hne : a ≠ x := by
        intro hc
        rw [hc] at hnd'
        exact hnd'.1 hx'
      have hstep : (a :: t).filter (fun u => u ≠ x) = a :: t.filter (fun u => u ≠ x) := by
        simp [List.filter_cons, hne]
      rw [hstep]
      have hih := ih hnd'.2 hx'
      have ht1 : 1 ≤ t.length := List.length_pos.mpr (List.ne_nil_of_mem hx')
      simp only [List.length_cons]
      omega

/-! Further list lemmas used by the network development. -/

theorem insertA_insertA {κ ν : Type} [DecidableEq κ] (l : List (κ × ν)) (k : κ) (v : ν) :
    insertA (insertA l k v) k v = insertA l k v := by
  induction l with
  | nil => simp [insertA]
  | cons pr rest ih =>
    obtain ⟨k₀, v₀⟩ := pr
    by_cases hk : k₀ = k
    · simp only [insertA, if_pos hk]
      simp [insertA]
    · simp only [insertA, if_neg hk]
      rw [ih]

theorem filterMap_const_none {α β : Type} (l : List α) :
    l.filterMap (fun _ => (none : Option β)) = [] := by
  induction l with
  | nil => rfl
  | cons a t ih => simp [List.filterMap_cons, ih]

theorem filterMap_all_some {α β : Type} (F : α → β) (l : List α) :
    l.filterMap (fun x => some (F x)) = l.map F := by
  induction l with
  | nil => rfl
  | cons a t ih => simp [List.filterMap_cons, ih]

theorem votersFor_append (a b : List (HashVal × String)) (h : HashVal) (nid : String) :
    votersFor (a ++ b) h nid = votersFor a h nid ++ votersFor b h nid := by
  unfold votersFor
  rw [List.filter_append, List.map_append]

theorem votersFor_fresh {votes : List (HashVal × String)} {bh : HashVal}
    (hfr : ∀ u, ((bh, u) : HashVal × String) ∉ votes) (nid : String) :
    votersFor votes bh nid = [] := by
  unfold votersFor
  have hnil : votes.filter (fun p => p.1 == bh && p.2 != nid) = [] := by
    rw [List.filter_eq_nil]
    intro p hp hc
    rw [Bool.and_eq_true] at hc
    have h1 : p.1 = bh := by simpa using hc.1
    have : ((bh, p.2) : HashVal × String) ∈ votes := by
      rw [← h1]
      exact hp
    exact hfr p.2 this
  rw [hnil]
  rfl

theorem votersFor_app_ne {votes : List (HashVal × String)} {bh h : HashVal} (hne : h ≠ bh)
    (R : List String) (nid : String) :
    votersFor (votes ++ R.map (fun u => (bh, u))) h nid = votersFor votes h nid := by
  rw [votersFor_append]
  have hfr : ∀ u, ((h, u) : HashVal × String) ∉ R.map (fun u => (bh, u)) := by
    intro u hu
    obtain ⟨x, -, hxe⟩ := List.mem_map.mp hu
    exact hne (congrArg Prod.fst hxe).symm
  rw [votersFor_fresh hfr]
  simp

theorem votersFor_app_bh (R : List String) (bh : HashVal) (nid : String) :
    votersFor (R.map (fun u => (bh, u))) bh nid = R.filter (fun u => u ≠ nid) := by
  induction R with
  | nil => rfl
  | cons a t ih =>
    show votersFor ((bh, a) :: t.map (fun u => (bh, u))) bh nid = _
    unfold votersFor at ih ⊢
    rw [List.filter_cons, List.filter_cons]
    by_cases ha : a = nid
    · rw [if_neg (by simp [ha]), if_neg (by simp [ha])]
      exact ih
    · rw [if_pos (by simp [ha]), if_pos (by simp [ha])]
      rw [List.map_cons]
      rw [ih]

theorem baseNotz_voters (n : Node) (v : Vote) :
    (baseNotz n v).voters = notzVoters n.notarizations v.block_hash := by
  unfold baseNotz notzVoters
  rcases lookupA n.notarizations v.block_hash with _ | z <;> rfl

theorem notzVoters_insertA (nz : List (HashVal × Notarization)) (k : HashVal)
    (z : Notarization) (h : HashVal) :
    notzVoters (insertA nz k z) h = if k = h then z.voters else notzVoters nz h := by
  unfold notzVoters
  rw [lookupA_insertA]
  by_cases hk : k = h
  · rw [if_pos hk, if_pos hk]
  · rw [if_neg hk, if_neg hk]

theorem tryFinalizeCore_idem (blocks : List (HashVal × Block))
    (po : List (HashVal × Option HashVal)) (notar fin : List HashVal) (tip : HashVal) :
    tryFinalizeCore blocks po notar (tryFinalizeCore blocks po notar fin tip) tip =
      tryFinalizeCore blocks po notar fin tip := by
  unfold tryFinalizeCore
  rcases hg : gather3 blocks po notar tip with _ | ⟨b3, b2, b1⟩
  · rfl
  · dsimp only
    rcases h3 : lookupA blocks b3 with _ | blk3 <;>
      rcases h2 : lookupA blocks b2 with _ | blk2 <;>
        rcases h1 : lookupA blocks b1 with _ | blk1 <;>
          dsimp only <;> try rfl
    by_cases hep : blk3.epoch = blk2.epoch + 1 ∧ blk2.epoch = blk1.epoch + 1
    · rw [if_pos hep, if_pos hep]
      exact finalizeAncestors_idem blocks po (hashDepth b2) (hashDepth b2 + 1) fin b2
    · rw [if_neg hep]

/-- In a state where every stored block's parent link leads to a notarized
block (or genesis), the finalization walk can only finalize notarized
hashes. -/
theorem finReach_notar {blocks : List (HashVal × Block)}
    {po : List (HashVal × Option HashVal)} {notar fin : List HashVal}
    (hI2 : ∀ h, lookupA po h = (lookupA blocks h).map
      (fun b => if b.parent_hash = HashVal.genesis then none else some b.parent_hash))
    (hI7 : ∀ pr ∈ blocks, pr.2.parent_hash = HashVal.genesis ∨ pr.2.parent_hash ∈ notar)
    {h g : HashVal} (hr : FinReach blocks po fin h g) (hh : h ∈ notar) : g ∈ notar := by
  induction hr with
  | refl h _ _ => exact hh
  | step h p g _ _ hp _ ih =>
    apply ih
    have hlk : lookupA po h = some (some p) := by
      unfold parentGet at hp
      rcases hx : lookupA po h with _ | v
      · rw [hx] at hp
        exact absurd hp (by simp)
      · rw [hx] at hp
        dsimp only at hp
        rw [hp]
    rw [hI2 h] at hlk
    rcases hb : lookupA blocks h with _ | b
    · rw [hb] at hlk
      exact absurd hlk (by simp)
    · rw [hb] at hlk
      dsimp only [Option.map] at hlk
      have hcond := Option.some.inj hlk
      by_cases hgen : b.parent_hash = HashVal.genesis
      · rw [if_pos hgen] at hcond
        exact absurd hcond (by simp)
      · rw [if_neg hgen] at hcond
        have hpe : b.parent_hash = p := Option.some.inj hcond
        rcases hI7 (h, b) (lookupA_mem hb) with hc | hc
        · exact absurd hc hgen
        · rw [hpe] at hc
          exact hc

theorem tryFinalizeCore_sub_notar {blocks : List (HashVal × Block)}
    {po : List (HashVal × Option HashVal)} {notar fin : List HashVal} {tip : HashVal}
    (hpo : StructPO po)
    (hI2 : ∀ h, lookupA po h = (lookupA blocks h).map
      (fun b => if b.parent_hash = HashVal.genesis then none else some b.parent_hash))
    (hI7 : ∀ pr ∈ blocks, pr.2.parent_hash = HashVal.genesis ∨ pr.2.parent_hash ∈ notar)
    (hfin : ∀ h ∈ fin, h ∈ notar) :
    ∀ g ∈ tryFinalizeCore blocks po notar fin tip, g ∈ notar := by
  intro g hg
  rcases (tryFinalizeCore_mem_iff hpo notar fin tip g).mp hg with hold | ⟨b2, b1, hel, hr⟩
  · exact hfin g hold
  · obtain ⟨⟨-, -, -, -, hb2n, -, -, -⟩, -⟩ := hel
    exact finReach_notar hI2 hI7 hr hb2n

/-! ### Uniformity of the vote decision

`can_vote_for` reads only the replica's blocks, parent links, notarized
set, and which `(block, own-id)` keys appear in `votes_seen`.  In a
symmetric state with unanimous votes the outcome is the same at every
replica. -/

/-- The first guard of `can_vote_for`, phrased over the shared view: some
recorded vote is for a stored block of the proposal's epoch.  Under
unanimity this is replica-independent. -/
def scanHit (blocks : List (HashVal × Block)) (votes : List (HashVal × String))
    (e : Int) : Prop :=
  ∃ h u, ((h, u) : HashVal × String) ∈ votes ∧
    ∃ b, lookupA blocks h = some b ∧ b.epoch = e

/-- The chain-extension guard of `can_vote_for`, which reads no
replica-specific state. -/
def chainExtendOK (blocks : List (HashVal × Block))
    (po : List (HashVal × Option HashVal)) (notarized : List HashVal)
    (blk : Block) : Bool :=
  let chains := longestChainsCore blocks po notarized
  if chains = [] then
    blk.parent_hash == HashVal.genesis || (lookupA blocks blk.parent_hash).isNone
  else
    chains.any (fun c => c.getLast? == some blk.parent_hash)

theorem scan_any_iff {n : Node} {votes : List (HashVal × String)} {R : List String}
    (hvc : ∀ k, (lookupA n.votes_seen k).isSome = true ↔ k ∈ votes)
    (hnid : n.node_id ∈ R)
    (hI4 : ∀ p ∈ votes, ∀ u ∈ R, ((p.1, u) : HashVal × String) ∈ votes) (e : Int) :
    (n.votes_seen.any (fun kv =>
        match lookupA n.blocks kv.1.1 with
        | some b => kv.1.2 == n.node_id && b.epoch == e
        | none => false) = true) ↔ scanHit n.blocks votes e := by
  constructor
  · intro hs
    obtain ⟨kv, hmem, hpred⟩ := List.any_eq_true.mp hs
    rcases hb : lookupA n.blocks kv.1.1 with _ | b
    · rw [hb] at hpred
      exact absurd hpred (by simp)
    · rw [hb] at hpred
      rw [Bool.and_eq_true] at hpred
      have he : b.epoch = e := by simpa using hpred.2
      have hkmem : kv.1 ∈ votes := by
        refine (hvc kv.1).mp ?_
        refine (lookupA_isSome_iff).mpr ⟨kv.2, ?_⟩
        exact hmem
      exact ⟨kv.1.1, kv.1.2, hkmem, b, hb, he⟩
  · rintro ⟨h, u, hu, b, hb, he⟩
    have hmine : ((h, n.node_id) : HashVal × String) ∈ votes := hI4 (h, u) hu n.node_id hnid
    have hsome : (lookupA n.votes_seen (h, n.node_id)).isSome = true := (hvc _).mpr hmine
    obtain ⟨vt, hvt⟩ := Option.isSome_iff_exists.mp hsome
    refine List.any_eq_true.mpr ⟨((h, n.node_id), vt), lookupA_mem hvt, ?_⟩
    dsimp only
    rw [hb]
    simp [he]

/-- In a symmetric unanimous state the vote decision depends only on the
shared view. -/
theorem can_vote_for_iff_scan {n : Node} {blk : Block}
    {votes : List (HashVal × String)} {R : List String}
    (hvc : ∀ k, (lookupA n.votes_seen k).isSome = true ↔ k ∈ votes)
    (hnid : n.node_id ∈ R)
    (hI4 : ∀ p ∈ votes, ∀ u ∈ R, ((p.1, u) : HashVal × String) ∈ votes) :
    n.can_vote_for blk = true ↔
      ¬ scanHit n.blocks votes blk.epoch ∧ ¬ blk.epoch < 0 ∧
      chainExtendOK n.blocks n.parent_of n.notarized_blocks blk = true := by
  unfold Node.can_vote_for
  by_cases hscan : (n.votes_seen.any (fun kv =>
      match lookupA n.blocks kv.1.1 with
      | some b => kv.1.2 == n.node_id && b.epoch == blk.epoch
      | none => false) = true)
  · rw [if_pos hscan]
    constructor
    · intro hc
      exact absurd hc (by simp)
    · rintro ⟨h1, -, -⟩
      exact absurd ((scan_any_iff hvc hnid hI4 blk.epoch).mp hscan) h1
  · rw [if_neg hscan]
    by_cases hneg : blk.epoch < 0
    · rw [if_pos hneg]
      constructor
      · intro hc
        exact absurd hc (by simp)
      · rintro ⟨-, h2, -⟩
        exact absurd hneg h2
    · rw [if_neg hneg]
      have hsc : ¬ scanHit n.blocks votes blk.epoch := by
        intro hhit
        exact hscan ((scan_any_iff hvc hnid hI4 blk.epoch).mpr hhit)
      constructor
      · intro hc
        exact ⟨hsc, hneg, hc⟩
      · rintro ⟨-, -, h3⟩
        exact h3

theorem mem_of_getLastQ {α : Type} : ∀ {l : List α} {a : α}, l.getLast? = some a → a ∈ l := by
  intro l
  induction l with
  | nil => intro a h; exact absurd h (by simp)
  | cons x t ih =>
    intro a h
    cases t with
    | nil =>
      simp only [List.getLast?] at h
      simp [List.getLast] at h
      rw [h]
      exact List.mem_cons_self _ _
    | cons y t' =>
      rw [List.getLast?_cons_cons] at h
      exact List.mem_cons_of_mem _ (ih h)

/-- Every chain kept by `longest_notarized_chains` ends at its notarized
tip. -/
theorem longestChainsCore_tips (blocks : List (HashVal × Block))
    (po : List (HashVal × Option HashVal)) (notar : List HashVal)
    (hI8 : ∀ h ∈ notar, (lookupA blocks h).isSome = true) :
    ∀ c ∈ longestChainsCore blocks po notar, ∃ bh, bh ∈ notar ∧ c.getLast? = some bh := by
  have key : ∀ (l : List HashVal), (∀ x ∈ l, x ∈ notar) →
      ∀ (acc : Nat × List (List HashVal)),
        (∀ c ∈ acc.2, ∃ bh, bh ∈ notar ∧ c.getLast? = some bh) →
        ∀ c ∈ (l.foldl
          (fun acc bh =>
            let w := walkChain blocks po (hashDepth bh + 1) (some bh)
            if w.2 = some HashVal.genesis ∨ w.2 = none then
              if w.1.length > acc.1 then (w.1.length, [w.1.reverse])
              else if w.1.length = acc.1 then (acc.1, acc.2 ++ [w.1.reverse])
              else acc
            else acc)
          acc).2, ∃ bh, bh ∈ notar ∧ c.getLast? = some bh := by
    intro l
    induction l with
    | nil =>
      intro _ acc hacc c hc
      exact hacc c hc
    | cons a t ih =>
      intro hl acc hacc
      rw [List.foldl_cons]
      refine ih (fun x hx => hl x (List.mem_cons_of_mem a hx)) _ ?_
      intro c hc
      dsimp only at hc
      have hblk : (lookupA blocks a).isSome = true := hI8 a (hl a (List.mem_cons_self a t))
      have hwalk : walkChain blocks po (hashDepth a + 1) (some a) =
          (a :: (walkChain blocks po (hashDepth a) (parentGet po a)).1,
           (walkChain blocks po (hashDepth a) (parentGet po a)).2) := by
        simp [walkChain, hblk]
      rw [hwalk] at hc
      dsimp only at hc
      have hrev : ((a :: (walkChain blocks po (hashDepth a) (parentGet po a)).1).reverse).getLast?
          = some a := by
        rw [List.reverse_cons, List.getLast?_concat]
      split at hc
      · split at hc
        · rcases List.mem_singleton.mp hc with rfl
          exact ⟨a, hl a (List.mem_cons_self a t), hrev⟩
        · split at hc
          · rcases List.mem_append.mp hc with hold | hnew
            · exact hacc c hold
            · rcases List.mem_singleton.mp hnew with rfl
              exact ⟨a, hl a (List.mem_cons_self a t), hrev⟩
          · exact hacc c hc
      · exact hacc c hc
  intro c hc
  exact key notar (fun x hx => hx) (0, []) (by intro c hc; simp at hc) c hc

/-- The parent chosen by `propose` is genesis or a notarized hash. -/
theorem propose_parent_ok (blocks : List (HashVal × Block))
    (po : List (HashVal × Option HashVal)) (notar : List HashVal)
    (hI8 : ∀ h ∈ notar, (lookupA blocks h).isSome = true) :
    (match (longestChainsCore blocks po notar).getLast? with
     | some c => c.getLastD HashVal.genesis
     | none => HashVal.genesis) = HashVal.genesis ∨
    (match (longestChainsCore blocks po notar).getLast? with
     | some c => c.getLastD HashVal.genesis
     | none => HashVal.genesis) ∈ notar := by
  rcases hch : (longestChainsCore blocks po notar).getLast? with _ | c
  · left
    rfl
  · obtain ⟨bh, hbh, hlast⟩ :=
      longestChainsCore_tips blocks po notar hI8 c (mem_of_getLastQ hch)
    right
    dsimp only
    rw [List.getLastD_eq_getLast?, hlast]
    exact hbh

/-! ### Broadcast and delivery lemmas -/

/-- The state of a replica right after `observe_proposal` records the block
(before the vote decision). -/
def propRecv (n : Node) (blk : Block) (bh : HashVal) : Node :=
  { n with blocks := insertA n.blocks bh blk,
           parent_of := insertA n.parent_of bh
             (if blk.parent_hash = HashVal.genesis then none else some blk.parent_hash) }

/-- The vote the replica at roster position `p.1` with id `p.2` produces for
the proposal with hash `bh` at epoch `e`. -/
def canonVote (bh : HashVal) (e : Int) (p : Nat × String) : Vote :=
  ⟨bh, e, p.2, ⟨p.1, ⟨bh, e, p.2⟩⟩⟩

theorem observe_proposal_unfold {n : Node} {blk : Block} {bh : HashVal}
    (hh : blk.hash? = some bh) :
    n.observe_proposal blk =
      (if (propRecv n blk bh).can_vote_for blk then
        some ({ propRecv n blk bh with
                  votes_seen := insertA n.votes_seen (bh, n.node_id)
                    ((propRecv n blk bh).sign_vote bh blk.epoch) },
              some ((propRecv n blk bh).sign_vote bh blk.epoch))
      else some (propRecv n blk bh, none)) := by
  unfold Node.observe_proposal propRecv
  rw [hh]

theorem observe_proposal_vote_eq {n : Node} {blk : Block} {bh : HashVal}
    (hh : blk.hash? = some bh) {i : Nat} {nid : String}
    (hid : n.node_id = nid) (hk : n.keys = ⟨i⟩)
    (hcan : (propRecv n blk bh).can_vote_for blk = true) :
    n.observe_proposal blk =
      some ({ propRecv n blk bh with
                votes_seen := insertA n.votes_seen (bh, nid) (canonVote bh blk.epoch (i, nid)) },
            some (canonVote bh blk.epoch (i, nid))) := by
  rw [observe_proposal_unfold hh, if_pos hcan]
  have hsv : (propRecv n blk bh).sign_vote bh blk.epoch = canonVote bh blk.epoch (i, nid) := by
    unfold Node.sign_vote canonVote propRecv Ed25519KeyPair.sign
    dsimp only
    rw [hid, hk]
  rw [hsv, hid]

theorem observe_proposal_novote_eq {n : Node} {blk : Block} {bh : HashVal}
    (hh : blk.hash? = some bh)
    (hcan : ¬ (propRecv n blk bh).can_vote_for blk = true) :
    n.observe_proposal blk = some (propRecv n blk bh, none) := by
  rw [observe_proposal_unfold hh, if_neg hcan]

/-- `broadcastProposal` over a roster-indexed node map: pointwise
per-replica results assemble into a map and a `filterMap` of the votes. -/
theorem broadcastProposal_eq {blk : Block} {G G' : Nat × String → Node}
    {vf : Nat × String → Option Vote} :
    ∀ (l : List (Nat × String)),
      (∀ p ∈ l, Node.observe_proposal (G p) blk = some (G' p, vf p)) →
      broadcastProposal (l.map (fun p => (p.2, G p))) blk =
        some (l.map (fun p => (p.2, G' p)), l.filterMap vf) := by
  intro l
  induction l with
  | nil => intro _; rfl
  | cons a t ih =>
    intro hall
    show broadcastProposal ((a.2, G a) :: t.map (fun p => (p.2, G p))) blk = _
    unfold broadcastProposal
    rw [hall a (List.mem_cons_self a t)]
    dsimp only
    rw [ih (fun p hp => hall p (List.mem_cons_of_mem a hp))]
    dsimp only
    rw [List.filterMap_cons]
    rcases vf a with _ | v
    · rfl
    · rfl

/-- Processing a vote batch at one replica. -/
def procVotes (votes : List Vote) (n : Node) : Node :=
  votes.foldl (fun m v => (m.observe_vote v).1) n

/-- The two nested loops of the vote broadcast commute: delivering every
vote to every node equals processing the whole batch at each node
independently. -/
theorem deliverVotes_eq_map : ∀ (votes : List Vote) (nodes : List (String × Node)),
    deliverVotes nodes votes = nodes.map (fun p => (p.1, procVotes votes p.2)) := by
  intro votes
  induction votes with
  | nil =>
    intro nodes
    show nodes = nodes.map (fun p => (p.1, procVotes [] p.2))
    have : nodes.map (fun p => (p.1, procVotes [] p.2)) = nodes.map id := rfl
    rw [this, List.map_id]
  | cons v vs ih =>
    intro nodes
    show deliverVotes (deliverVoteAll nodes v) vs = _
    rw [ih]
    unfold deliverVoteAll
    rw [List.map_map]
    rfl

theorem lookupA_insertA_isSome_iff {κ ν : Type} [DecidableEq κ] (l : List (κ × ν))
    (k k' : κ) (v : ν) :
    (lookupA (insertA l k v) k').isSome = true ↔ k = k' ∨ (lookupA l k').isSome = true := by
  rw [lookupA_insertA]
  by_cases hk : k = k'
  · rw [if_pos hk]
    simp [hk]
  · rw [if_neg hk]
    simp [hk]

theorem exists_mem_append_singleton {α : Type} {l : List α} {a : α} {P : α → Prop} :
    (∃ x ∈ l ++ [a], P x) ↔ (∃ x ∈ l, P x) ∨ P a := by
  constructor
  · rintro ⟨x, hx, hp⟩
    rcases List.mem_append.mp hx with h | h
    · exact Or.inl ⟨x, h, hp⟩
    · rcases List.mem_singleton.mp h with rfl
      exact Or.inr hp
  · rintro (⟨x, hx, hp⟩ | hp)
    · exact ⟨x, List.mem_append_left _ hx, hp⟩
    · exact ⟨a, List.mem_append_right _ (List.mem_singleton.mpr rfl), hp⟩

theorem enum_map_snd {α : Type} (l : List α) : l.enum.map Prod.snd = l :=
  enumFrom_map_snd l 0

/-- Mid-batch state of one replica during the vote broadcast of one
`step_epoch`: `done` is the roster prefix whose votes have been delivered.
The aggregate for the proposal holds exactly the done-voters other than the
replica itself (its own vote was recorded at signing time and is rejected
as a duplicate), and notarization/finalization have fired iff that aggregate
reached `2f+1`. -/
def MidNode (R : List String) (f : Int) (V : View) (B₁ : List (HashVal × Block))
    (P₁ : List (HashVal × Option HashVal)) (bh : HashVal)
    (done : List (Nat × String)) (i : Nat) (nid : String) (m : Node) : Prop :=
  m.node_id = nid ∧ m.keys = ⟨i⟩ ∧ m.public_keys = pubsOf R ∧ m.f = f ∧
  m.blocks = B₁ ∧ m.parent_of = P₁ ∧
  (∀ k, (lookupA m.votes_seen k).isSome = true ↔
    (k ∈ V.votes ∨ k = (bh, nid) ∨ ∃ q ∈ done, k = (bh, q.2))) ∧
  m.notarized_blocks =
    (if ((done.map Prod.snd).filter (fun x => x ≠ nid)) ≠ [] ∧
        ((((done.map Prod.snd).filter (fun x => x ≠ nid)).length : Int) ≥ 2 * f + 1)
     then insertS V.notar bh else V.notar) ∧
  m.finalized =
    (if ((done.map Prod.snd).filter (fun x => x ≠ nid)) ≠ [] ∧
        ((((done.map Prod.snd).filter (fun x => x ≠ nid)).length : Int) ≥ 2 * f + 1)
     then tryFinalizeCore B₁ P₁ (insertS V.notar bh) V.fin bh else V.fin) ∧
  (∀ h, h ≠ bh → notzVoters m.notarizations h = votersFor V.votes h nid) ∧
  notzVoters m.notarizations bh = (done.map Prod.snd).filter (fun x => x ≠ nid)

theorem deliver_batch {R : List String} (hnd : R.Nodup) (f : Int) (V : View)
    (bh : HashVal) (e : Int) (B₁ : List (HashVal × Block))
    (P₁ : List (HashVal × Option HashVal))
    (hfresh : ∀ u, ((bh, u) : HashVal × String) ∉ V.votes) :
    ∀ (todo done : List (Nat × String)), done ++ todo = R.enum →
      ∀ (i : Nat) (nid : String), (i, nid) ∈ R.enum →
      ∀ (m : Node), MidNode R f V B₁ P₁ bh done i nid m →
      MidNode R f V B₁ P₁ bh (done ++ todo) i nid
        (procVotes (todo.map (canonVote bh e)) m) := by
  intro todo
  induction todo with
  | nil =>
    intro done hsplit i nid hin m hmid
    rw [List.append_nil]
    exact hmid
  | cons q todo' ih =>
    intro done hsplit i nid hin m hmid
    obtain ⟨j, u⟩ := q
    obtain ⟨hid, hk, hpk, hf, hB, hP, hvs, hnb, hfin, hnzne, hnzbh⟩ := hmid
    have hq_mem : (j, u) ∈ R.enum := by
      rw [← hsplit]
      exact List.mem_append_right _ (List.mem_cons_self _ _)
    have hmapR : done.map Prod.snd ++ u :: todo'.map Prod.snd = R := by
      have hc := congrArg (List.map Prod.snd) hsplit
      rw [List.map_append, List.map_cons, enum_map_snd] at hc
      exact hc
    have hnodup : (done.map Prod.snd ++ u :: todo'.map Prod.snd).Nodup := by
      rw [hmapR]
      exact hnd
    have hu_done : u ∉ done.map Prod.snd := by
      intro hc
      exact (List.nodup_append.mp hnodup).2.2 hc (List.mem_cons_self _ _)
    have happ : (done ++ [(j, u)]) ++ todo' = done ++ (j, u) :: todo' := by
      rw [List.append_assoc]
      rfl
    have hsplit' : (done ++ [(j, u)]) ++ todo' = R.enum := by
      rw [happ]
      exact hsplit
    have hpc : procVotes (((j, u) :: todo').map (canonVote bh e)) m =
        procVotes (todo'.map (canonVote bh e)) ((m.observe_vote (canonVote bh e (j, u))).1) :=
      rfl
    rw [hpc, ← happ]
    have hpkl : lookupA m.public_keys u = some j := by
      rw [hpk]
      exact lookupA_pubsOf hnd hq_mem
    by_cases hu_ne : u = nid
    · -- own vote: rejected as a duplicate, state unchanged
      subst hu_ne
      have hdup : (lookupA m.votes_seen (bh, u)).isSome = true :=
        (hvs (bh, u)).mpr (Or.inr (Or.inl rfl))
      have hcf : voteChecks m (canonVote bh e (j, u)) = false := by
        unfold voteChecks
        dsimp only [canonVote]
        rw [hpkl]
        dsimp only
        rw [isNone_eq_false_of_isSome hdup]
        simp
      rw [observe_vote_of_checks_false hcf]
      dsimp only
      refine ih (done ++ [(j, u)]) hsplit' i u hin m ?_
      have hDL' : ((done ++ [(j, u)]).map Prod.snd).filter (fun x => x ≠ u) =
          (done.map Prod.snd).filter (fun x => x ≠ u) := by
        rw [List.map_append, List.filter_append]
        simp
      refine ⟨hid, hk, hpk, hf, hB, hP, ?_, ?_, ?_, hnzne, ?_⟩
      · intro k
        rw [hvs k, exists_mem_append_singleton]
        dsimp only
        constructor
        · rintro (h | h | h)
          · exact Or.inl h
          · exact Or.inr (Or.inl h)
          · exact Or.inr (Or.inr (Or.inl h))
        · rintro (h | h | h | h)
          · exact Or.inl h
          · exact Or.inr (Or.inl h)
          · exact Or.inr (Or.inr h)
          · exact Or.inr (Or.inl h)
      · rw [hDL']
        exact hnb
      · rw [hDL']
        exact hfin
      · rw [hDL']
        exact hnzbh
    · -- another replica's vote: accepted
      have hu_DL : u ∉ (done.map Prod.snd).filter (fun x => x ≠ nid) := by
        intro hc
        exact hu_done (List.mem_of_mem_filter hc)
      have hdupf : (lookupA m.votes_seen (bh, u)).isSome = false := by
        rw [Bool.eq_false_iff]
        intro hs
        rcases (hvs (bh, u)).mp hs with hA | hB' | hC
        · exact hfresh u hA
        · exact hu_ne (congrArg Prod.snd hB')
        · obtain ⟨qq, hqq, hqe⟩ := hC
          have hueq : u = qq.2 := congrArg Prod.snd hqe
          exact hu_done (hueq ▸ List.mem_map_of_mem Prod.snd hqq)
      have hchecks : voteChecks m (canonVote bh e (j, u)) = true := by
        unfold voteChecks
        dsimp only [canonVote]
        rw [hpkl]
        dsimp only
        rw [isNone_eq_true_of_isSome_eq_false hdupf]
        simp [verify_signature]
      have hpost : postVoters m (canonVote bh e (j, u)) =
          (done.map Prod.snd).filter (fun x => x ≠ nid) ++ [u] := by
        unfold postVoters
        rw [baseNotz_voters]
        dsimp only [canonVote]
        rw [hnzbh]
        exact insertS_of_not_mem hu_DL
      have hDLapp : ((done ++ [(j, u)]).map Prod.snd).filter (fun x => x ≠ nid) =
          (done.map Prod.snd).filter (fun x => x ≠ nid) ++ [u] := by
        rw [List.map_append, List.filter_append]
        simp [hu_ne]
      have hlen1 : ((done.map Prod.snd).filter (fun x => x ≠ nid) ++ [u]).length =
          ((done.map Prod.snd).filter (fun x => x ≠ nid)).length + 1 := by
        simp
      rcases observe_vote_eq m (canonVote bh e (j, u)) with ⟨hcf, -⟩ | ⟨-, hrest⟩
      · rw [hchecks] at hcf
        exact absurd hcf (by simp)
      rcases hrest with ⟨hql, heq⟩ | ⟨hqg, heq⟩
      · -- below quorum: vote recorded, aggregate grows, nothing else
        rw [hpost, hf, hlen1] at hql
        have hoc : ¬ ((done.map Prod.snd).filter (fun x => x ≠ nid) ≠ [] ∧
            ((((done.map Prod.snd).filter (fun x => x ≠ nid)).length : Int) ≥ 2 * f + 1)) := by
          rintro ⟨-, hge⟩
          apply hql
          push_cast
          omega
        have hnc : ¬ ((done.map Prod.snd).filter (fun x => x ≠ nid) ++ [u] ≠ [] ∧
            ((((done.map Prod.snd).filter (fun x => x ≠ nid) ++ [u]).length : Int)
              ≥ 2 * f + 1)) := by
          rintro ⟨-, hge⟩
          apply hql
          rw [hlen1] at hge
          exact hge
        rw [heq]
        dsimp only
        refine ih (done ++ [(j, u)]) hsplit' i nid hin _ ?_
        refine ⟨hid, hk, hpk, hf, hB, hP, ?_, ?_, ?_, ?_, ?_⟩
        · intro k
          dsimp only [canonVote]
          rw [lookupA_insertA_isSome_iff, hvs k, exists_mem_append_singleton]
          dsimp only
          constructor
          · rintro (h | h | h | h)
            · exact Or.inr (Or.inr (Or.inr h.symm))
            · exact Or.inl h
            · exact Or.inr (Or.inl h)
            · exact Or.inr (Or.inr (Or.inl h))
          · rintro (h | h | h | h)
            · exact Or.inr (Or.inl h)
            · exact Or.inr (Or.inr (Or.inl h))
            · exact Or.inr (Or.inr (Or.inr h))
            · exact Or.inl h.symm
        · rw [hDLapp, if_neg hnc]
          rw [hnb, if_neg hoc]
        · rw [hDLapp, if_neg hnc]
          rw [hfin, if_neg hoc]
        · intro h hne
          dsimp only [canonVote]
          rw [notzVoters_insertA, if_neg (fun hc => hne hc.symm)]
          exact hnzne h hne
        · rw [hDLapp]
          dsimp only [canonVote]
          rw [notzVoters_insertA, if_pos rfl]
          show postVoters m (canonVote bh e (j, u)) = _
          exact hpost
      · -- quorum reached: notarize and try to finalize
        rw [hpost, hf, hlen1] at hqg
        have hnc : ((done.map Prod.snd).filter (fun x => x ≠ nid) ++ [u] ≠ [] ∧
            ((((done.map Prod.snd).filter (fun x => x ≠ nid) ++ [u]).length : Int)
              ≥ 2 * f + 1)) := by
          constructor
          · simp
          · rw [hlen1]
            exact hqg
        have hnotar3 : insertS m.notarized_blocks bh = insertS V.notar bh := by
          by_cases hoc : ((done.map Prod.snd).filter (fun x => x ≠ nid) ≠ [] ∧
              ((((done.map Prod.snd).filter (fun x => x ≠ nid)).length : Int) ≥ 2 * f + 1))
          · rw [hnb, if_pos hoc, insertS_idem]
          · rw [hnb, if_neg hoc]
        have hfin3 : tryFinalizeCore B₁ P₁ (insertS V.notar bh) m.finalized bh =
            tryFinalizeCore B₁ P₁ (insertS V.notar bh) V.fin bh := by
          by_cases hoc : ((done.map Prod.snd).filter (fun x => x ≠ nid) ≠ [] ∧
              ((((done.map Prod.snd).filter (fun x => x ≠ nid)).length : Int) ≥ 2 * f + 1))
          · rw [hfin, if_pos hoc]
            exact tryFinalizeCore_idem B₁ P₁ (insertS V.notar bh) V.fin bh
          · rw [hfin, if_neg hoc]
        rw [heq]
        dsimp only
        refine ih (done ++ [(j, u)]) hsplit' i nid hin _ ?_
        unfold Node.try_finalize
        dsimp only [canonVote]
        refine ⟨hid, hk, hpk, hf, hB, hP, ?_, ?_, ?_, ?_, ?_⟩
        · intro k
          rw [lookupA_insertA_isSome_iff, hvs k, exists_mem_append_singleton]
          dsimp only
          constructor
          · rintro (h | h | h | h)
            · exact Or.inr (Or.inr (Or.inr h.symm))
            · exact Or.inl h
            · exact Or.inr (Or.inl h)
            · exact Or.inr (Or.inr (Or.inl h))
          · rintro (h | h | h | h)
            · exact Or.inr (Or.inl h)
            · exact Or.inr (Or.inr (Or.inl h))
            · exact Or.inr (Or.inr (Or.inr h))
            · exact Or.inl h.symm
        · rw [hDLapp, if_pos hnc]
          exact hnotar3
        · rw [hDLapp, if_pos hnc]
          show tryFinalizeCore m.blocks m.parent_of (insertS m.notarized_blocks bh)
            m.finalized bh = _
          rw [hB, hP, hnotar3]
          exact hfin3
        · intro h hne
          rw [notzVoters_insertA, if_neg (fun hc => hne hc.symm)]
          exact hnzne h hne
        · rw [hDLapp]
          rw [notzVoters_insertA, if_pos rfl]
          show postVoters m (canonVote bh e (j, u)) = _
          exact hpost

/-! ### One `step_epoch` preserves the harness invariant -/

theorem lookupA_enum_map {β : Type} (F : Nat × String → β) {l : List String} (hnd : l.Nodup)
    {i : Nat} {nid : String} (hp : (i, nid) ∈ l.enum) :
    lookupA (l.enum.map (fun p => (p.2, F p))) nid = some (F (i, nid)) :=
  lookupA_enumFrom_map F l 0 hnd hp

theorem insertA_enum_map (F : Nat × String → Node) (nd : Node) {l : List String}
    (hnd : l.Nodup) {i : Nat} {nid : String} (hp : (i, nid) ∈ l.enum) :
    insertA (l.enum.map (fun p => (p.2, F p))) nid nd =
      l.enum.map (fun p => (p.2, if p.2 = nid then nd else F p)) :=
  insertA_enumFrom_map F nd l 0 hnd hp

theorem mem_enum_of_mem {α : Type} {l : List α} {x : α} (h : x ∈ l) :
    ∃ i, (i, x) ∈ l.enum :=
  mem_enumFrom_of_mem 0 h

theorem snd_mem_of_mem_enum {α : Type} {l : List α} {p : Nat × α} (h : p ∈ l.enum) :
    p.2 ∈ l :=
  snd_mem_of_mem_enumFrom h

theorem deliverVotes_nil (nodes : List (String × Node)) : deliverVotes nodes [] = nodes := rfl

/-- The block `propose` builds from the local view. -/
def proposalOf (V : View) (L : String) (e : Int) (pay : List Nat) : Block :=
  { parent_hash :=
      match (longestChainsCore V.blocks V.po V.notar).getLast? with
      | some c => c.getLastD HashVal.genesis
      | none => HashVal.genesis,
    epoch := e, proposer_id := L, payload := pay }

theorem propose_eq {n : Node} {V : View} {L : String} (hid : n.node_id = L)
    (hB : n.blocks = V.blocks) (hP : n.parent_of = V.po) (hnb : n.notarized_blocks = V.notar)
    {e : Int} {R : List String} (hL : leader_for_epoch e R = some L) (pay : List Nat) :
    n.propose e R pay =
      (match (proposalOf V L e pay).hash? with
       | none => none
       | some bh =>
         some ({ n with blocks := insertA V.blocks bh (proposalOf V L e pay),
                        parent_of := insertA V.po bh
                          (if (proposalOf V L e pay).parent_hash = HashVal.genesis then none
                           else some (proposalOf V L e pay).parent_hash) },
               some (proposalOf V L e pay))) := by
  unfold Node.propose
  rw [hL]
  dsimp only
  rw [if_neg (fun hc => hc hid.symm)]
  unfold Node.longest_notarized_chains
  rw [hB, hP, hnb, hid]
  unfold proposalOf
  rfl

/-- The parent chosen by `propose` is genesis or notarized (view form). -/
theorem proposalOf_parent_ok (V : View) (L : String) (e : Int) (pay : List Nat)
    (hI8 : ∀ h ∈ V.notar, (lookupA V.blocks h).isSome = true) :
    (proposalOf V L e pay).parent_hash = HashVal.genesis ∨
    (proposalOf V L e pay).parent_hash ∈ V.notar :=
  propose_parent_ok V.blocks V.po V.notar hI8

/-- Inserting a freshly hashed block preserves the structural block/parent
invariants of the view. -/
theorem viewOK_insert_block {R : List String} {V : View} (hVok : ViewOK R V)
    {blk : Block} {bh : HashVal} (hh : blk.hash? = some bh) :
    (∀ pr ∈ insertA V.blocks bh blk, Block.hash? pr.2 = some pr.1) ∧
    (∀ h, lookupA (insertA V.po bh
        (if blk.parent_hash = HashVal.genesis then none else some blk.parent_hash)) h =
      (lookupA (insertA V.blocks bh blk) h).map
        (fun b => if b.parent_hash = HashVal.genesis then none else some b.parent_hash)) ∧
    StructPO (insertA V.po bh
      (if blk.parent_hash = HashVal.genesis then none else some blk.parent_hash)) ∧
    (∀ h ∈ V.notar, (lookupA (insertA V.blocks bh blk) h).isSome = true) ∧
    (∀ p ∈ V.votes, p.2 ∈ R ∧ (lookupA (insertA V.blocks bh blk) p.1).isSome = true) := by
  refine ⟨?_, ?_, ?_, ?_, ?_⟩
  · intro pr hpr
    rcases mem_insertA hpr with rfl | hold
    · exact hh
    · exact hVok.hI1 _ hold
  · intro h
    rw [lookupA_insertA, lookupA_insertA]
    by_cases hbh : bh = h
    · rw [if_pos hbh, if_pos hbh]
      rfl
    · rw [if_neg hbh, if_neg hbh]
      exact hVok.hI2 h
  · intro pr hpr
    rcases mem_insertA hpr with rfl | hold
    · exact POEntryOKb_of_hash hh
    · exact hVok.hI2s _ hold
  · intro h hm
    exact lookupA_insertA_isSome (hVok.hI8 h hm)
  · intro p hp
    exact ⟨(hVok.hI3 p hp).1, lookupA_insertA_isSome (hVok.hI3 p hp).2⟩

theorem blocks_parent_ok {R : List String} {V : View} (hVok : ViewOK R V)
    {blk : Block} {bh : HashVal}
    (hpar : blk.parent_hash = HashVal.genesis ∨ blk.parent_hash ∈ V.notar) :
    ∀ pr ∈ insertA V.blocks bh blk,
      pr.2.parent_hash = HashVal.genesis ∨ pr.2.parent_hash ∈ V.notar := by
  intro pr hpr
  rcases mem_insertA hpr with rfl | hold
  · exact hpar
  · exact hVok.hI7 _ hold

/-- The view after a full unanimous vote round satisfies the view
invariants. -/
theorem viewOK_vote_round {R : List String} {V : View} (hVok : ViewOK R V)
    {blk : Block} {bh : HashVal} (hh : blk.hash? = some bh)
    (hpar : blk.parent_hash = HashVal.genesis ∨ blk.parent_hash ∈ V.notar)
    (hscan : ¬ scanHit (insertA V.blocks bh blk) V.votes blk.epoch) (f : Int) :
    ViewOK R ⟨insertA V.blocks bh blk,
      insertA V.po bh (if blk.parent_hash = HashVal.genesis then none else some blk.parent_hash),
      V.votes ++ R.map (fun u => (bh, u)),
      if 2 ≤ R.length ∧ 2 * f + 1 ≤ (R.length : Int) - 1 then insertS V.notar bh else V.notar,
      if 2 ≤ R.length ∧ 2 * f + 1 ≤ (R.length : Int) - 1
      then tryFinalizeCore (insertA V.blocks bh blk)
        (insertA V.po bh
          (if blk.parent_hash = HashVal.genesis then none else some blk.parent_hash))
        (insertS V.notar bh) V.fin bh
      else V.fin⟩ := by
  obtain ⟨hI1n, hI2n, hI2sn, hI8mono, hI3n⟩ := viewOK_insert_block hVok hh
  have hfresh : ∀ u, ((bh, u) : HashVal × String) ∉ V.votes := by
    intro u hu
    exact hscan ⟨bh, u, hu, blk, by rw [lookupA_insertA, if_pos rfl], rfl⟩
  refine ⟨hI1n, hI2n, hI2sn, ?_, ?_, ?_, ?_, ?_, ?_, ?_⟩
  · -- I3
    intro p hp
    rcases List.mem_append.mp hp with ho | hn
    · exact hI3n p ho
    · obtain ⟨x, hx, hxe⟩ := List.mem_map.mp hn
      cases hxe
      refine ⟨hx, ?_⟩
      dsimp only
      rw [lookupA_insertA, if_pos rfl]
      rfl
  · -- I4
    intro p hp u hu
    rcases List.mem_append.mp hp with ho | hn
    · exact List.mem_append_left _ (hVok.hI4 p ho u hu)
    · obtain ⟨x, hx, hxe⟩ := List.mem_map.mp hn
      cases hxe
      exact List.mem_append_right _ (List.mem_map_of_mem _ hu)
  · -- I5
    intro h₁ h₂ u hm₁ hm₂ hep
    rcases List.mem_append.mp hm₁ with h1o | h1n
    · rcases List.mem_append.mp hm₂ with h2o | h2n
      · exact hVok.hI5 h₁ h₂ u h1o h2o hep
      · obtain ⟨x, hx, hxe⟩ := List.mem_map.mp h2n
        have hb2 : h₂ = bh := (congrArg Prod.fst hxe).symm
        rw [hb2] at hep
        exfalso
        apply hscan
        obtain ⟨b, hb⟩ := Option.isSome_iff_exists.mp (hVok.hI3 (h₁, u) h1o).2
        have hne : bh ≠ h₁ := by
          intro hc
          rw [← hc] at h1o
          exact hfresh u h1o
        refine ⟨h₁, u, h1o, b, ?_, ?_⟩
        · rw [lookupA_insertA, if_neg hne]
          exact hb
        · have he1 : epochOf h₁ = b.epoch := epochOf_of_hash (hVok.hI1 (h₁, b) (lookupA_mem hb))
          have he2 : epochOf bh = blk.epoch := epochOf_of_hash hh
          rw [← he1, hep, he2]
    · rcases List.mem_append.mp hm₂ with h2o | h2n
      · obtain ⟨x, hx, hxe⟩ := List.mem_map.mp h1n
        have hb1 : h₁ = bh := (congrArg Prod.fst hxe).symm
        rw [hb1] at hep
        exfalso
        apply hscan
        obtain ⟨b, hb⟩ := Option.isSome_iff_exists.mp (hVok.hI3 (h₂, u) h2o).2
        have hne : bh ≠ h₂ := by
          intro hc
          rw [← hc] at h2o
          exact hfresh u h2o
        refine ⟨h₂, u, h2o, b, ?_, ?_⟩
        · rw [lookupA_insertA, if_neg hne]
          exact hb
        · have he1 : epochOf h₂ = b.epoch := epochOf_of_hash (hVok.hI1 (h₂, b) (lookupA_mem hb))
          have he2 : epochOf bh = blk.epoch := epochOf_of_hash hh
          rw [← he1, ← hep, he2]
      · obtain ⟨x, -, hxe⟩ := List.mem_map.mp h1n
        obtain ⟨y, -, hye⟩ := List.mem_map.mp h2n
        have hb1 : bh = h₁ := congrArg Prod.fst hxe
        have hb2 : bh = h₂ := congrArg Prod.fst hye
        rw [← hb1, ← hb2]
  · -- I6
    intro h hm
    by_cases htr : (2 ≤ R.length ∧ 2 * f + 1 ≤ (R.length : Int) - 1)
    · rw [if_pos htr] at hm
      rcases mem_insertS.mp hm with rfl | hold
      · have hR : R ≠ [] := by
          intro hc
          rw [hc] at htr
          simp at htr
        obtain ⟨u, hu⟩ := List.exists_mem_of_ne_nil R hR
        exact ⟨u, List.mem_append_right _ (List.mem_map_of_mem _ hu)⟩
      · obtain ⟨u, hu⟩ := hVok.hI6 h hold
        exact ⟨u, List.mem_append_left _ hu⟩
    · rw [if_neg htr] at hm
      obtain ⟨u, hu⟩ := hVok.hI6 h hm
      exact ⟨u, List.mem_append_left _ hu⟩
  · -- I7
    intro pr hpr
    rcases blocks_parent_ok hVok hpar pr hpr with hg | hn
    · exact Or.inl hg
    · right
      by_cases htr : (2 ≤ R.length ∧ 2 * f + 1 ≤ (R.length : Int) - 1)
      · rw [if_pos htr]
        exact subset_insertS _ _ hn
      · rw [if_neg htr]
        exact hn
  · -- I8
    intro h hm
    by_cases htr : (2 ≤ R.length ∧ 2 * f + 1 ≤ (R.length : Int) - 1)
    · rw [if_pos htr] at hm
      rcases mem_insertS.mp hm with rfl | hold
      · rw [lookupA_insertA, if_pos rfl]
        rfl
      · exact hI8mono h hold
    · rw [if_neg htr] at hm
      exact hI8mono h hm
  · -- I9
    intro h hm
    dsimp only at hm ⊢
    by_cases htr : (2 ≤ R.length ∧ 2 * f + 1 ≤ (R.length : Int) - 1)
    · rw [if_pos htr] at hm ⊢
      refine tryFinalizeCore_sub_notar hI2sn hI2n ?_ ?_ h hm
      · intro pr hpr
        rcases blocks_parent_ok hVok hpar pr hpr with hg | hn
        · exact Or.inl hg
        · exact Or.inr (subset_insertS _ _ hn)
      · intro x hx
        exact subset_insertS _ _ (hVok.hI9 x hx)
    · rw [if_neg htr] at hm ⊢
      exact hVok.hI9 h hm

/-- The view after a round in which nobody voted. -/
theorem viewOK_silent_round {R : List String} {V : View} (hVok : ViewOK R V)
    {blk : Block} {bh : HashVal} (hh : blk.hash? = some bh)
    (hpar : blk.parent_hash = HashVal.genesis ∨ blk.parent_hash ∈ V.notar) :
    ViewOK R ⟨insertA V.blocks bh blk,
      insertA V.po bh (if blk.parent_hash = HashVal.genesis then none else some blk.parent_hash),
      V.votes, V.notar, V.fin⟩ := by
  obtain ⟨hI1n, hI2n, hI2sn, hI8mono, hI3n⟩ := viewOK_insert_block hVok hh
  exact ⟨hI1n, hI2n, hI2sn, hI3n, hVok.hI4, hVok.hI5, hVok.hI6,
    blocks_parent_ok hVok hpar, hI8mono, hVok.hI9⟩

theorem midNode_init {R : List String} {f : Int} {V : View} {B₁ : List (HashVal × Block)}
    {P₁ : List (HashVal × Option HashVal)} {bh : HashVal} {pi : Nat} {p2 : String} {m : Node}
    (hid : m.node_id = p2) (hk : m.keys = ⟨pi⟩) (hpk : m.public_keys = pubsOf R) (hf : m.f = f)
    (hB : m.blocks = B₁) (hP : m.parent_of = P₁)
    (hnb : m.notarized_blocks = V.notar) (hfin : m.finalized = V.fin)
    (hvs : ∀ k, (lookupA m.votes_seen k).isSome = true ↔ (k ∈ V.votes ∨ k = (bh, p2)))
    (hnz : ∀ h, notzVoters m.notarizations h = votersFor V.votes h p2)
    (hfresh : ∀ u, ((bh, u) : HashVal × String) ∉ V.votes) :
    MidNode R f V B₁ P₁ bh [] pi p2 m := by
  refine ⟨hid, hk, hpk, hf, hB, hP, ?_, ?_, ?_, fun h _ => hnz h, ?_⟩
  · intro k
    rw [hvs k]
    constructor
    · rintro (h | h)
      · exact Or.inl h
      · exact Or.inr (Or.inl h)
    · rintro (h | h | ⟨q, hq, -⟩)
      · exact Or.inl h
      · exact Or.inr h
      · exact absurd hq (by simp)
  · rw [hnb, if_neg (fun hc => hc.1 rfl)]
  · rw [hfin, if_neg (fun hc => hc.1 rfl)]
  · rw [hnz bh, votersFor_fresh hfresh]
    rfl

theorem midNode_finish {R : List String} (hnd : R.Nodup) {f : Int} {V : View}
    {B₁ : List (HashVal × Block)} {P₁ : List (HashVal × Option HashVal)} {bh : HashVal}
    {pi : Nat} {p2 : String} {m : Node} (hp : (pi, p2) ∈ R.enum)
    (hmid : MidNode R f V B₁ P₁ bh R.enum pi p2 m)
    (hfresh : ∀ u, ((bh, u) : HashVal × String) ∉ V.votes) :
    NodeOK (pubsOf R) f
      ⟨B₁, P₁, V.votes ++ R.map (fun u => (bh, u)),
       if 2 ≤ R.length ∧ 2 * f + 1 ≤ (R.length : Int) - 1 then insertS V.notar bh else V.notar,
       if 2 ≤ R.length ∧ 2 * f + 1 ≤ (R.length : Int) - 1
       then tryFinalizeCore B₁ P₁ (insertS V.notar bh) V.fin bh else V.fin⟩
      pi p2 m := by
  obtain ⟨hid, hk, hpk, hf, hB, hP, hvs, hnb, hfin, hnzne, hnzbh⟩ := hmid
  have hp2R : p2 ∈ R := snd_mem_of_mem_enum hp
  have hR1 : R ≠ [] := List.ne_nil_of_mem hp2R
  have hlp : 0 < R.length := List.length_pos.mpr hR1
  have hlenf : (R.filter (fun x => x ≠ p2)).length = R.length - 1 := filter_ne_length hnd hp2R
  have hDL : ((R.enum.map Prod.snd).filter (fun x => x ≠ p2)) = R.filter (fun x => x ≠ p2) := by
    rw [enum_map_snd]
  have hcond : (((R.enum.map Prod.snd).filter (fun x => x ≠ p2)) ≠ [] ∧
      ((((R.enum.map Prod.snd).filter (fun x => x ≠ p2)).length : Int) ≥ 2 * f + 1)) ↔
      (2 ≤ R.length ∧ 2 * f + 1 ≤ (R.length : Int) - 1) := by
    rw [hDL]
    rw [show (R.filter (fun x => x ≠ p2) ≠ []) ↔ 0 < (R.filter (fun x => x ≠ p2)).length from
      List.length_pos.symm]
    rw [hlenf]
    omega
  have hvotes_iff : ∀ k : HashVal × String,
      (k ∈ V.votes ∨ k = (bh, p2) ∨ ∃ q ∈ R.enum, k = (bh, q.2)) ↔
      k ∈ V.votes ++ R.map (fun u => (bh, u)) := by
    intro k
    rw [List.mem_append]
    constructor
    · rintro (h | h | ⟨q, hq, rfl⟩)
      · exact Or.inl h
      · rw [h]
        exact Or.inr (List.mem_map_of_mem _ hp2R)
      · exact Or.inr (List.mem_map_of_mem _ (snd_mem_of_mem_enum hq))
    · rintro (h | h)
      · exact Or.inl h
      · obtain ⟨x, hx, hxe⟩ := List.mem_map.mp h
        obtain ⟨ix, hix⟩ := mem_enum_of_mem hx
        exact Or.inr (Or.inr ⟨(ix, x), hix, hxe.symm⟩)
  refine ⟨hid, hk, hpk, hf, hB, hP, ?_, ?_, ?_, ?_⟩
  · rw [hnb, if_congr hcond rfl rfl]
  · rw [hfin, if_congr hcond rfl rfl]
  · intro k
    rw [hvs k]
    exact hvotes_iff k
  · intro h
    by_cases hhb : h = bh
    · subst hhb
      rw [hnzbh, hDL, votersFor_append, votersFor_fresh hfresh, votersFor_app_bh]
      rfl
    · rw [votersFor_app_ne hhb]
      exact hnzne h hhb

/-- One harness step preserves the network invariant. -/
theorem step_epoch_netinv {R : List String} (hnd : R.Nodup) {f : Int}
    {net net' : StreamletNetwork} (hinv : NetInv R f net)
    (e : Int) (pay : List Nat) (hstep : net.step_epoch e pay = some net') :
    NetInv R f net' := by
  obtain ⟨hids, hfnet, V, g, hVok, hnodes, hnok⟩ := hinv
  unfold StreamletNetwork.step_epoch at hstep
  rw [hids, hnodes] at hstep
  rcases hL : leader_for_epoch e R with _ | L
  · rw [hL] at hstep
    exact absurd hstep (by simp)
  rw [hL] at hstep
  dsimp only at hstep
  have hLR : L ∈ R := by
    unfold leader_for_epoch at hL
    exact List.get?_mem hL
  obtain ⟨iL, hiL⟩ := mem_enum_of_mem hLR
  obtain ⟨hidL, hkL, hpkL, hfL, hBL, hPL, hnbL, hfinL, hvsL, hnzL⟩ := hnok (iL, L) hiL
  rw [lookupA_enum_map g hnd hiL] at hstep
  dsimp only at hstep
  rw [propose_eq hidL hBL hPL hnbL hL pay] at hstep
  rcases hh : (proposalOf V L e pay).hash? with _ | bh
  · rw [hh] at hstep
    exact absurd hstep (by simp)
  rw [hh] at hstep
  dsimp only at hstep
  rw [insertA_enum_map g
    { g (iL, L) with
        blocks := insertA V.blocks bh (proposalOf V L e pay),
        parent_of := insertA V.po bh
          (if (proposalOf V L e pay).parent_hash = HashVal.genesis then none
           else some (proposalOf V L e pay).parent_hash) } hnd hiL] at hstep
  have hpar : (proposalOf V L e pay).parent_hash = HashVal.genesis ∨
      (proposalOf V L e pay).parent_hash ∈ V.notar :=
    proposalOf_parent_ok V L e pay hVok.hI8
  -- uniform per-replica facts about the post-insert states
  have hnorm : ∀ p : Nat × String, p ∈ R.enum →
      (if p.2 = L then
        { g (iL, L) with
            blocks := insertA V.blocks bh (proposalOf V L e pay),
            parent_of := insertA V.po bh
              (if (proposalOf V L e pay).parent_hash = HashVal.genesis then none
               else some (proposalOf V L e pay).parent_hash) }
       else g p).node_id = p.2 ∧
      (if p.2 = L then
        { g (iL, L) with
            blocks := insertA V.blocks bh (proposalOf V L e pay),
            parent_of := insertA V.po bh
              (if (proposalOf V L e pay).parent_hash = HashVal.genesis then none
               else some (proposalOf V L e pay).parent_hash) }
       else g p).keys = ⟨p.1⟩ ∧
      (if p.2 = L then
        { g (iL, L) with
            blocks := insertA V.blocks bh (proposalOf V L e pay),
            parent_of := insertA V.po bh
              (if (proposalOf V L e pay).parent_hash = HashVal.genesis then none
               else some (proposalOf V L e pay).parent_hash) }
       else g p).public_keys = pubsOf R ∧
      (if p.2 = L then
        { g (iL, L) with
            blocks := insertA V.blocks bh (proposalOf V L e pay),
            parent_of := insertA V.po bh
              (if (proposalOf V L e pay).parent_hash = HashVal.genesis then none
               else some (proposalOf V L e pay).parent_hash) }
       else g p).f = f ∧
      (if p.2 = L then
        { g (iL, L) with
            blocks := insertA V.blocks bh (proposalOf V L e pay),
            parent_of := insertA V.po bh
              (if (proposalOf V L e pay).parent_hash = HashVal.genesis then none
               else some (proposalOf V L e pay).parent_hash) }
       else g p).notarized_blocks = V.notar ∧
      (if p.2 = L then
        { g (iL, L) with
            blocks := insertA V.blocks bh (proposalOf V L e pay),
            parent_of := insertA V.po bh
              (if (proposalOf V L e pay).parent_hash = HashVal.genesis then none
               else some (proposalOf V L e pay).parent_hash) }
       else g p).finalized = V.fin ∧
      (if p.2 = L then
        { g (iL, L) with
            blocks := insertA V.blocks bh (proposalOf V L e pay),
            parent_of := insertA V.po bh
              (if (proposalOf V L e pay).parent_hash = HashVal.genesis then none
               else some (proposalOf V L e pay).parent_hash) }
       else g p).votes_seen = (g p).votes_seen ∧
      (if p.2 = L then
        { g (iL, L) with
            blocks := insertA V.blocks bh (proposalOf V L e pay),
            parent_of := insertA V.po bh
              (if (proposalOf V L e pay).parent_hash = HashVal.genesis then none
               else some (proposalOf V L e pay).parent_hash) }
       else g p).notarizations = (g p).notarizations ∧
      propRecv
        (if p.2 = L then
          { g (iL, L) with
              blocks := insertA V.blocks bh (proposalOf V L e pay),
              parent_of := insertA V.po bh
                (if (proposalOf V L e pay).parent_hash = HashVal.genesis then none
                 else some (proposalOf V L e pay).parent_hash) }
         else g p) (proposalOf V L e pay) bh =
        { g p with
            blocks := insertA V.blocks bh (proposalOf V L e pay),
            parent_of := insertA V.po bh
              (if (proposalOf V L e pay).parent_hash = HashVal.genesis then none
               else some (proposalOf V L e pay).parent_hash),
            notarized_blocks := V.notar } := by
    intro p hp
    obtain ⟨hid_p, hk_p, hpk_p, hf_p, hB_p, hP_p, hnb_p, hfin_p, hvs_p, hnz_p⟩ := hnok p hp
    obtain ⟨pi, p2⟩ := p
    by_cases hp2 : ((pi, p2) : Nat × String).2 = L
    · have hp2' : p2 = L := hp2
      subst p2
      have hpiL : pi = iL := by
        have h1 := lookupA_pubsOf hnd hp
        have h2 := lookupA_pubsOf hnd hiL
        rw [h1] at h2
        exact Option.some.inj h2
      subst hpiL
      rw [if_pos hp2]
      refine ⟨hid_p, hk_p, hpk_p, hf_p, hnb_p, hfin_p, rfl, rfl, ?_⟩
      unfold propRecv
      dsimp only
      rw [insertA_insertA, insertA_insertA, ← hnb_p]
    · rw [if_neg hp2]
      refine ⟨hid_p, hk_p, hpk_p, hf_p, hnb_p, hfin_p, rfl, rfl, ?_⟩
      unfold propRecv
      rw [hB_p, hP_p, ← hnb_p]
  -- the vote decision is uniform
  have hciff : ∀ p : Nat × String, p ∈ R.enum →
      ((propRecv
        (if p.2 = L then
          { g (iL, L) with
              blocks := insertA V.blocks bh (proposalOf V L e pay),
              parent_of := insertA V.po bh
                (if (proposalOf V L e pay).parent_hash = HashVal.genesis then none
                 else some (proposalOf V L e pay).parent_hash) }
         else g p) (proposalOf V L e pay) bh).can_vote_for (proposalOf V L e pay) = true ↔
      (¬ scanHit (insertA V.blocks bh (proposalOf V L e pay)) V.votes
          (proposalOf V L e pay).epoch ∧
        ¬ (proposalOf V L e pay).epoch < 0 ∧
        chainExtendOK (insertA V.blocks bh (proposalOf V L e pay))
          (insertA V.po bh
            (if (proposalOf V L e pay).parent_hash = HashVal.genesis then none
             else some (proposalOf V L e pay).parent_hash)) V.notar
          (proposalOf V L e pay) = true)) := by
    intro p hp
    obtain ⟨hid_p, hk_p, hpk_p, hf_p, hB_p, hP_p, hnb_p, hfin_p, hvs_p, hnz_p⟩ := hnok p hp
    obtain ⟨-, -, -, -, -, -, -, -, hn9⟩ := hnorm p hp
    rw [hn9]
    refine can_vote_for_iff_scan ?_ ?_ hVok.hI4
    · exact fun k => hvs_p k
    · show (g p).node_id ∈ R
      rw [hid_p]
      exact snd_mem_of_mem_enum hp
  by_cases hd : (¬ scanHit (insertA V.blocks bh (proposalOf V L e pay)) V.votes
      (proposalOf V L e pay).epoch ∧
    ¬ (proposalOf V L e pay).epoch < 0 ∧
    chainExtendOK (insertA V.blocks bh (proposalOf V L e pay))
      (insertA V.po bh
        (if (proposalOf V L e pay).parent_hash = HashVal.genesis then none
         else some (proposalOf V L e pay).parent_hash)) V.notar
      (proposalOf V L e pay) = true)
  · -- everyone votes
    have hfresh : ∀ u, ((bh, u) : HashVal × String) ∉ V.votes := by
      intro u hu
      exact hd.1 ⟨bh, u, hu, proposalOf V L e pay,
        by rw [lookupA_insertA, if_pos rfl], rfl⟩
    have hobs : ∀ p ∈ R.enum,
        Node.observe_proposal
          (if p.2 = L then
            { g (iL, L) with
                blocks := insertA V.blocks bh (proposalOf V L e pay),
                parent_of := insertA V.po bh
                  (if (proposalOf V L e pay).parent_hash = HashVal.genesis then none
                   else some (proposalOf V L e pay).parent_hash) }
           else g p) (proposalOf V L e pay) =
        some ({ propRecv
                  (if p.2 = L then
                    { g (iL, L) with
                        blocks := insertA V.blocks bh (proposalOf V L e pay),
                        parent_of := insertA V.po bh
                          (if (proposalOf V L e pay).parent_hash = HashVal.genesis then none
                           else some (proposalOf V L e pay).parent_hash) }
                   else g p) (proposalOf V L e pay) bh with
                  votes_seen := insertA
                    (if p.2 = L then
                      { g (iL, L) with
                          blocks := insertA V.blocks bh (proposalOf V L e pay),
                          parent_of := insertA V.po bh
                            (if (proposalOf V L e pay).parent_hash = HashVal.genesis then none
                             else some (proposalOf V L e pay).parent_hash) }
                     else g p).votes_seen (bh, p.2) (canonVote bh e p) },
              some (canonVote bh e p)) := by
      intro p hp
      obtain ⟨hn1, hn2, -, -, -, -, -, -, -⟩ := hnorm p hp
      exact observe_proposal_vote_eq hh hn1 hn2 ((hciff p hp).mpr hd)
    have hvconv : R.enum.filterMap (fun p => some (canonVote bh e p)) =
        R.enum.map (canonVote bh e) := filterMap_all_some (canonVote bh e) R.enum
    have hbc := broadcastProposal_eq R.enum hobs
    rw [hvconv] at hbc
    rw [hbc] at hstep
    dsimp only at hstep
    have hnet := Option.some.inj hstep
    subst hnet
    refine ⟨rfl, hfnet,
      ⟨insertA V.blocks bh (proposalOf V L e pay),
       insertA V.po bh
         (if (proposalOf V L e pay).parent_hash = HashVal.genesis then none
          else some (proposalOf V L e pay).parent_hash),
       V.votes ++ R.map (fun u => (bh, u)),
       if 2 ≤ R.length ∧ 2 * f + 1 ≤ (R.length : Int) - 1
       then insertS V.notar bh else V.notar,
       if 2 ≤ R.length ∧ 2 * f + 1 ≤ (R.length : Int) - 1
       then tryFinalizeCore (insertA V.blocks bh (proposalOf V L e pay))
         (insertA V.po bh
           (if (proposalOf V L e pay).parent_hash = HashVal.genesis then none
            else some (proposalOf V L e pay).parent_hash))
         (insertS V.notar bh) V.fin bh
       else V.fin⟩,
      (fun p => procVotes (R.enum.map (canonVote bh e))
        { propRecv
            (if p.2 = L then
              { g (iL, L) with
                  blocks := insertA V.blocks bh (proposalOf V L e pay),
                  parent_of := insertA V.po bh
                    (if (proposalOf V L e pay).parent_hash = HashVal.genesis then none
                     else some (proposalOf V L e pay).parent_hash) }
             else g p) (proposalOf V L e pay) bh with
            votes_seen := insertA
              (if p.2 = L then
                { g (iL, L) with
                    blocks := insertA V.blocks bh (proposalOf V L e pay),
                    parent_of := insertA V.po bh
                      (if (proposalOf V L e pay).parent_hash = HashVal.genesis then none
                       else some (proposalOf V L e pay).parent_hash) }
               else g p).votes_seen (bh, p.2) (canonVote bh e p) }),
      viewOK_vote_round hVok hh hpar hd.1 f, ?_, ?_⟩
    · show deliverVotes _ _ = _
      rw [deliverVotes_eq_map, List.map_map]
      rfl
    · intro p hp
      obtain ⟨hid_p, hk_p, hpk_p, hf_p, hB_p, hP_p, hnb_p, hfin_p, hvs_p, hnz_p⟩ := hnok p hp
      obtain ⟨hn1, hn2, hn3, hn4, hn5, hn6, hn7, hn8, hn9⟩ := hnorm p hp
      refine midNode_finish hnd hp ?_ hfresh
      refine deliver_batch hnd f V bh e _ _ hfresh R.enum [] rfl p.1 p.2 hp _ ?_
      refine midNode_init ?_ ?_ ?_ ?_ ?_ ?_ ?_ ?_ ?_ ?_ hfresh
      · exact congrArg Node.node_id hn9 |>.trans (hid_p)
      · exact congrArg Node.keys hn9 |>.trans (hk_p)
      · exact congrArg Node.public_keys hn9 |>.trans (hpk_p)
      · exact congrArg Node.f hn9 |>.trans (hf_p)
      · exact congrArg Node.blocks hn9
      · exact congrArg Node.parent_of hn9
      · exact congrArg Node.notarized_blocks hn9
      · exact congrArg Node.finalized hn9 |>.trans (hfin_p)
      · intro k
        show (lookupA (insertA
          (if p.2 = L then
            { g (iL, L) with
                blocks := insertA V.blocks bh (proposalOf V L e pay),
                parent_of := insertA V.po bh
                  (if (proposalOf V L e pay).parent_hash = HashVal.genesis then none
                   else some (proposalOf V L e pay).parent_hash) }
           else g p).votes_seen (bh, p.2) (canonVote bh e p)) k).isSome = true ↔ _
        rw [hn7, lookupA_insertA_isSome_iff, hvs_p k]
        constructor
        · rintro (h | h)
          · exact Or.inr h.symm
          · exact Or.inl h
        · rintro (h | h)
          · exact Or.inr h
          · exact Or.inl h.symm
      · intro h
        show notzVoters
          (if p.2 = L then
            { g (iL, L) with
                blocks := insertA V.blocks bh (proposalOf V L e pay),
                parent_of := insertA V.po bh
                  (if (proposalOf V L e pay).parent_hash = HashVal.genesis then none
                   else some (proposalOf V L e pay).parent_hash) }
           else g p).notarizations h = _
        rw [hn8]
        exact hnz_p h
  · -- nobody votes
    have hobs : ∀ p ∈ R.enum,
        Node.observe_proposal
          (if p.2 = L then
            { g (iL, L) with
                blocks := insertA V.blocks bh (proposalOf V L e pay),
                parent_of := insertA V.po bh
                  (if (proposalOf V L e pay).parent_hash = HashVal.genesis then none
                   else some (proposalOf V L e pay).parent_hash) }
           else g p) (proposalOf V L e pay) =
        some (propRecv
                (if p.2 = L then
                  { g (iL, L) with
                      blocks := insertA V.blocks bh (proposalOf V L e pay),
                      parent_of := insertA V.po bh
                        (if (proposalOf V L e pay).parent_hash = HashVal.genesis then none
                         else some (proposalOf V L e pay).parent_hash) }
                 else g p) (proposalOf V L e pay) bh,
              (none : Option Vote)) := by
      intro p hp
      exact observe_proposal_novote_eq hh (fun hc => hd ((hciff p hp).mp hc))
    have hvconv : R.enum.filterMap (fun _ : Nat × String => (none : Option Vote)) = [] :=
      filterMap_const_none R.enum
    have hbc := broadcastProposal_eq R.enum hobs
    rw [hvconv] at hbc
    rw [hbc] at hstep
    dsimp only at hstep
    rw [deliverVotes_nil] at hstep
    have hnet := Option.some.inj hstep
    subst hnet
    refine ⟨rfl, hfnet,
      ⟨insertA V.blocks bh (proposalOf V L e pay),
       insertA V.po bh
         (if (proposalOf V L e pay).parent_hash = HashVal.genesis then none
          else some (proposalOf V L e pay).parent_hash),
       V.votes, V.notar, V.fin⟩,
      (fun p => propRecv
        (if p.2 = L then
          { g (iL, L) with
              blocks := insertA V.blocks bh (proposalOf V L e pay),
              parent_of := insertA V.po bh
                (if (proposalOf V L e pay).parent_hash = HashVal.genesis then none
                 else some (proposalOf V L e pay).parent_hash) }
         else g p) (proposalOf V L e pay) bh),
      viewOK_silent_round hVok hh hpar, rfl, ?_⟩
    intro p hp
    obtain ⟨hid_p, hk_p, hpk_p, hf_p, hB_p, hP_p, hnb_p, hfin_p, hvs_p, hnz_p⟩ := hnok p hp
    obtain ⟨hn1, hn2, hn3, hn4, hn5, hn6, hn7, hn8, hn9⟩ := hnorm p hp
    refine ⟨congrArg Node.node_id hn9 |>.trans hid_p,
      congrArg Node.keys hn9 |>.trans hk_p,
      congrArg Node.public_keys hn9 |>.trans hpk_p,
      congrArg Node.f hn9 |>.trans hf_p,
      congrArg Node.blocks hn9,
      congrArg Node.parent_of hn9,
      congrArg Node.notarized_blocks hn9,
      congrArg Node.finalized hn9 |>.trans hfin_p, ?_, ?_⟩
    · intro k
      show (lookupA
        (if p.2 = L then
          { g (iL, L) with
              blocks := insertA V.blocks bh (proposalOf V L e pay),
              parent_of := insertA V.po bh
                (if (proposalOf V L e pay).parent_hash = HashVal.genesis then none
                 else some (proposalOf V L e pay).parent_hash) }
         else g p).votes_seen k).isSome = true ↔ _
      rw [hn7]
      exact hvs_p k
    · intro h
      show notzVoters
        (if p.2 = L then
          { g (iL, L) with
              blocks := insertA V.blocks bh (proposalOf V L e pay),
              parent_of := insertA V.po bh
                (if (proposalOf V L e pay).parent_hash = HashVal.genesis then none
                 else some (proposalOf V L e pay).parent_hash) }
         else g p).notarizations h = _
      rw [hn8]
      exact hnz_p h

theorem freshNetwork_netinv (R : List String) (f : Int) : NetInv R f (freshNetwork R f) := by
  refine ⟨rfl, rfl, ⟨[], [], [], [], []⟩, (fun p => initNode p.2 p.1 (pubsOf R) f), ?_, rfl, ?_⟩
  · refine ⟨?_, ?_, ?_, ?_, ?_, ?_, ?_, ?_, ?_, ?_⟩
    · intro pr hpr
      exact absurd hpr (by simp)
    · intro h
      rfl
    · intro pr hpr
      exact absurd hpr (by simp)
    · intro p hp
      exact absurd hp (by simp)
    · intro p hp
      exact absurd hp (by simp)
    · intro h₁ h₂ u hm₁
      exact absurd hm₁ (by simp)
    · intro h hm
      exact absurd hm (by simp)
    · intro pr hpr
      exact absurd hpr (by simp)
    · intro h hm
      exact absurd hm (by simp)
    · intro h hm
      exact absurd hm (by simp)
  · intro p hp
    refine ⟨rfl, rfl, rfl, rfl, rfl, rfl, rfl, rfl, ?_, ?_⟩
    · intro k
      constructor
      · intro hc
        exact absurd hc (by simp [initNode, lookupA])
      · intro hc
        exact absurd hc (by simp)
    · intro h
      rfl

theorem runSteps_netinv {R : List String} (hnd : R.Nodup) {f : Int} :
    ∀ (steps : List (Int × List Nat)) {net net' : StreamletNetwork},
      NetInv R f net → runSteps net steps = some net' → NetInv R f net' := by
  intro steps
  induction steps with
  | nil =>
    intro net net' hinv hrun
    cases Option.some.inj hrun
    exact hinv
  | cons s rest ih =>
    intro net net' hinv hrun
    obtain ⟨e, pay⟩ := s
    unfold runSteps at hrun
    rcases hs : net.step_epoch e pay with _ | mid
    · rw [hs] at hrun
      exact absurd hrun (by simp)
    · rw [hs] at hrun
      dsimp only at hrun
      exact ih (step_epoch_netinv hnd hinv e pay hs) hrun

theorem netReachable_netinv {R : List String} (hnd : R.Nodup) {f : Int}
    {net : StreamletNetwork} (hr : NetReachable R f net) : NetInv R f net := by
  obtain ⟨steps, hrun⟩ := hr
  exact runSteps_netinv hnd steps (freshNetwork_netinv R f) hrun

/-- C1: consensus safety across replicas.  In every state reachable by
running `StreamletNetwork.step_epoch` over any sequence of epochs and
payloads from a fresh network with a duplicate-free roster, if two replicas
each hold a finalized block whose stored `epoch` field is the same, then it
is the same block hash. -/
theorem C1_consensus_safety {R : List String} (hnd : R.Nodup) {f : Int}
    {net : StreamletNetwork} (hreach : NetReachable R f net)
    {nid₁ nid₂ : String} {n₁ n₂ : Node}
    (h₁ : (nid₁, n₁) ∈ net.nodes) (h₂ : (nid₂, n₂) ∈ net.nodes)
    {h g : HashVal} {b b' : Block}
    (hf₁ : h ∈ n₁.finalized) (hf₂ : g ∈ n₂.finalized)
    (hb₁ : lookupA n₁.blocks h = some b) (hb₂ : lookupA n₂.blocks g = some b')
    (he : b.epoch = b'.epoch) : h = g := by
  obtain ⟨-, -, V, gf, hVok, hnodes, hnok⟩ := netReachable_netinv hnd hreach
  rw [hnodes] at h₁ h₂
  obtain ⟨p₁, hp₁, hpe₁⟩ := List.mem_map.mp h₁
  obtain ⟨p₂, hp₂, hpe₂⟩ := List.mem_map.mp h₂
  have hn₁ : gf p₁ = n₁ := congrArg Prod.snd hpe₁
  have hn₂ : gf p₂ = n₂ := congrArg Prod.snd hpe₂
  obtain ⟨-, -, -, -, hBn₁, -, -, hFn₁, -, -⟩ := hnok p₁ hp₁
  obtain ⟨-, -, -, -, hBn₂, -, -, hFn₂, -, -⟩ := hnok p₂ hp₂
  rw [hn₁] at hBn₁ hFn₁
  rw [hn₂] at hBn₂ hFn₂
  rw [hFn₁] at hf₁
  rw [hFn₂] at hf₂
  rw [hBn₁] at hb₁
  rw [hBn₂] at hb₂
  have hhn : h ∈ V.notar := hVok.hI9 h hf₁
  have hgn : g ∈ V.notar := hVok.hI9 g hf₂
  obtain ⟨u, hu⟩ := hVok.hI6 h hhn
  obtain ⟨w, hw⟩ := hVok.hI6 g hgn
  have huR : u ∈ R := (hVok.hI3 (h, u) hu).1
  have hgu : ((g, u) : HashVal × String) ∈ V.votes := hVok.hI4 (g, w) hw u huR
  have he₁ : epochOf h = b.epoch := epochOf_of_hash (hVok.hI1 (h, b) (lookupA_mem hb₁))
  have he₂ : epochOf g = b'.epoch := epochOf_of_hash (hVok.hI1 (g, b') (lookupA_mem hb₂))
  exact hVok.hI5 h g u hu hgu (by rw [he₁, he₂, he])

/-- C5 (amended): in every state reachable through the network harness,
each replica's `notarized_blocks` is a subset of the keys of its `blocks`
map.  (The claim's per-replica adversarial version is refuted by
`C5_counterexample`: valid votes for a never-proposed hash notarize it with
no stored block.) -/
theorem C5_notarized_known_amended {R : List String} (hnd : R.Nodup) {f : Int}
    {net : StreamletNetwork} (hreach : NetReachable R f net)
    {nid : String} {n : Node} (hmem : (nid, n) ∈ net.nodes)
    {h : HashVal} (hn : h ∈ n.notarized_blocks) : (lookupA n.blocks h).isSome = true := by
  obtain ⟨-, -, V, gf, hVok, hnodes, hnok⟩ := netReachable_netinv hnd hreach
  rw [hnodes] at hmem
  obtain ⟨p, hp, hpe⟩ := List.mem_map.mp hmem
  have hgp : gf p = n := congrArg Prod.snd hpe
  obtain ⟨-, -, -, -, hB, -, hN, -, -, -⟩ := hnok p hp
  rw [hgp] at hB hN
  rw [hN] at hn
  rw [hB]
  exact hVok.hI8 h hn

/-! Concrete witnesses for the network-level theorems: the three-epoch
happy-path run of the Python test suite. -/

def c1steps : List (Int × List Nat) := [(0, []), (1, []), (2, [])]

def c1net : StreamletNetwork :=
  (runSteps (freshNetwork roster4 1) c1steps).getD (freshNetwork roster4 1)

def c1n1 : Node := (lookupA c1net.nodes "n1").getD (initNode "n1" 0 pubs4 1)

def c1n2 : Node := (lookupA c1net.nodes "n2").getD (initNode "n1" 0 pubs4 1)

def c1h : HashVal := HashVal.node (HashVal.node HashVal.genesis 0 "n1" []) 1 "n2" []

def c1blk : Block := ⟨HashVal.node HashVal.genesis 0 "n1" [], 1, "n2", []⟩

theorem C1_consensus_safety_witness :
    roster4.Nodup ∧
    runSteps (freshNetwork roster4 1) c1steps = some c1net ∧
    ("n1", c1n1) ∈ c1net.nodes ∧ ("n2", c1n2) ∈ c1net.nodes ∧
    c1h ∈ c1n1.finalized ∧ c1h ∈ c1n2.finalized ∧
    lookupA c1n1.blocks c1h = some c1blk ∧ lookupA c1n2.blocks c1h = some c1blk ∧
    c1h = c1h :=
  ⟨by decide, by rfl, by decide, by decide, by decide, by decide, by decide, by decide,
   @C1_consensus_safety roster4 (by decide) 1 c1net ⟨c1steps, rfl⟩ "n1" "n2" c1n1 c1n2
     (by decide) (by decide) c1h c1h c1blk c1blk (by decide) (by decide) (by decide)
     (by decide) rfl⟩

def c5wnet : StreamletNetwork :=
  (runSteps (freshNetwork roster4 1) [(0, [])]).getD (freshNetwork roster4 1)

def c5wn : Node := (lookupA c5wnet.nodes "n3").getD (initNode "n1" 0 pubs4 1)

def c5h0 : HashVal := HashVal.node HashVal.genesis 0 "n1" []

theorem C5_notarized_known_amended_witness :
    roster4.Nodup ∧
    runSteps (freshNetwork roster4 1) [(0, [])] = some c5wnet ∧
    ("n3", c5wn) ∈ c5wnet.nodes ∧ c5h0 ∈ c5wn.notarized_blocks ∧
    (lookupA c5wn.blocks c5h0).isSome = true :=
  ⟨by decide, by rfl, by decide, by decide,
   @C5_notarized_known_amended roster4 (by decide) 1 c5wnet ⟨[(0, [])], rfl⟩ "n3" c5wn
     (by decide) c5h0 (by decide)⟩

end Streamlet

